import Mathlib

/-!
Verification development for the cruiser OGame bot.

Shallow embedding of the core decision logic of the repository:
game data model (ogame/game/model.py, ogame/game/const.py), cargo packing,
hostile-event detection and fleet filtering (bot/bot.py), the scheduler
(bot/eventloop.py, a faithful embedding of the CPython heapq algorithms it
uses), the retry/backoff state machine, the per-wake game-state cache,
the defensive wake scheduling step, the saved-fleet table, and the
expedition repeat lifecycle.

Times are modelled as integers (epoch seconds; the code rounds wall-clock
time to an integer via the helper now() in bot/bot.py). Python dictionaries
whose iteration order matters are modelled as association lists in insertion
order; dictionaries used only for lookup with a default are modelled as
total functions.
-/

set_option maxHeartbeats 1000000

namespace Cruiser

/-- Body type of a coordinate, from ogame/game/const.py (CoordsType). -/
inductive CoordsType where
  | planet
  | debris
  | moon
deriving DecidableEq, Repr

/-- Mission kinds, from ogame/game/const.py (Mission). -/
inductive Mission where
  | attack
  | acs_attack
  | transport
  | deployment
  | defend
  | espionage
  | colonization
  | harvest
  | destroy
  | missile
  | expedition
  | trade
deriving DecidableEq, Repr

/-- Ship types, from ogame/game/const.py (Ship). -/
inductive Ship where
  | small_cargo
  | large_cargo
  | light_fighter
  | heavy_fighter
  | cruiser
  | battleship
  | colony_ship
  | recycler
  | espionage_probe
  | bomber
  | destroyer
  | solar_satellite
  | deathstar
  | battlecruiser
  | trade_ship
  | crawler
  | reaper
  | pathfinder
deriving DecidableEq, Repr

/-- Resource kinds, from ogame/game/const.py (Resource). -/
inductive Resource where
  | metal
  | crystal
  | deuterium
  | energy
  | dark_matter
deriving DecidableEq, Repr

/-- Coordinates, from ogame/game/model.py (Coordinates). -/
structure Coordinates where
  galaxy : Int
  system : Int
  position : Int
  type : CoordsType
deriving DecidableEq, Repr

/-- Planet, from ogame/game/model.py (Planet). -/
structure Planet where
  id : Int
  name : String
  coords : Coordinates
deriving DecidableEq, Repr

/-- Fleet event, with the fields constructed by OGame.get_events in
ogame/game/client.py: id, origin, dest, arrival_time, mission,
return_flight, ships (None when the hover tooltip is missing) and
player_id. Note that the dataclass declaration in ogame/game/model.py
omits the ships field even though the client constructs it and
bot/bot.py reads it; the embedding follows the construction site. A ship
dictionary is an association list in insertion order with distinct keys. -/
structure FleetEvent where
  id : Int
  origin : Coordinates
  dest : Coordinates
  arrival_time : Int
  mission : Mission
  return_flight : Bool
  ships : Option (List (Ship × Int))
  player_id : Option Int
deriving DecidableEq, Repr

/- ------------------------------------------------------------------ -/
/- Cargo packing: get_cargo in bot/bot.py.                             -/
/- ------------------------------------------------------------------ -/

/-- Loop body of get_cargo (bot/bot.py): iterate over the priority list of
resources, stop as soon as the free capacity is exhausted, and otherwise
load min(available, capacity) of each resource, recording the loaded
amount (possibly 0) in the result. -/
def getCargoGo (resources : Resource → Int) : List Resource → Int → List (Resource × Int)
  | [], _ => []
  | r :: rest, freeCargoCapacity =>
    if freeCargoCapacity ≤ 0 then []
    else
      let loadedAmount := min (resources r) freeCargoCapacity
      (r, loadedAmount) :: getCargoGo resources rest (freeCargoCapacity - loadedAmount)

/-- Translation of get_cargo (bot/bot.py): resources are packed in the
priority order deuterium, crystal, metal; the resources dictionary is
modelled as a total function (the code reads resources.get(resource, 0)). -/
def get_cargo (resources : Resource → Int) (freeCargoCapacity : Int) : List (Resource × Int) :=
  getCargoGo resources [Resource.deuterium, Resource.crystal, Resource.metal] freeCargoCapacity

/-- Amount packed for a resource in a cargo dictionary; a resource absent
from the dictionary counts as 0 packed. -/
def packedAmount (cargo : List (Resource × Int)) (r : Resource) : Int :=
  ((cargo.find? (fun p => p.1 = r)).map Prod.snd).getD 0

/- ------------------------------------------------------------------ -/
/- SendExpedition payload: bot/protocol.py and bot/configparser.py.    -/
/- ------------------------------------------------------------------ -/

/-- Repeat counter of an expedition: either a plain integer or the string
value forever (the Python field has type Union[int, str]). -/
inductive RepeatVal where
  | forever
  | int (n : Int)
deriving DecidableEq, Repr

/-- The SendExpedition dataclass exactly as declared in bot/protocol.py:
its only fields are id, origin, dest, ships, holding_time and repeat.
The holding_time default is 1 and the repeat default is forever. The
field repeat is called repeatCount here because repeat is reserved in
Lean. Note the declaration has no speed and no cargo field. -/
structure SendExpedition where
  id : String
  origin : Coordinates
  dest : Coordinates
  ships : List (Ship × Int)
  holding_time : Int := 1
  repeatCount : RepeatVal := RepeatVal.forever
deriving DecidableEq, Repr

/-- Field names of the SendExpedition dataclass as declared in
bot/protocol.py (in declaration order). -/
def sendExpeditionFieldNames : List String :=
  ["id", "origin", "dest", "ships", "holding_time", "repeat"]

/-- Keyword-argument names passed to the SendExpedition constructor by
_initialize_expedition in bot/configparser.py (in call order). -/
def buildExpeditionKwargNames : List String :=
  ["id", "origin", "dest", "ships", "speed", "holding_time", "repeat", "cargo"]

/-- Attribute names read from expedition.data by _handle_expeditions in
bot/bot.py (origin at line 630, dest and ships and speed and cargo and
holding_time in the dispatch step around lines 663 to 711, repeat at
lines 714 and 715, id throughout). -/
def handleExpeditionsDataAttrNames : List String :=
  ["id", "origin", "dest", "ships", "speed", "holding_time", "repeat", "cargo"]

/- ------------------------------------------------------------------ -/
/- Fleet filtering: find_fleets and find_hostile_events in bot/bot.py. -/
/- ------------------------------------------------------------------ -/

/-- A list-valued criterion of find_fleets (origin, dest, mission). The
Python code tests (not crit or value in crit), so both a missing
criterion (None) and an empty list let every fleet pass. -/
def listCritPasses {α : Type} [DecidableEq α] : Option (List α) → α → Bool
  | none, _ => true
  | some l, x => if l.isEmpty then true else l.contains x

/-- An integer-valued criterion of find_fleets (arrival_time,
arrives_before, arrives_after). The Python code tests
(not crit or test), so both a missing criterion (None) and the integer 0
let every fleet pass. -/
def intCritPasses : Option Int → (Int → Bool) → Bool
  | none, _ => true
  | some v, test => if v = 0 then true else test v

/-- Translation of find_fleets (bot/bot.py) for lists of fleet events,
with the criteria that apply to events: origin, dest, mission,
arrival_time, arrives_before, arrives_after and is_return_flight.
Singleton origin, dest and mission arguments of the Python function are
wrapped into singleton lists by the caller of this embedding, matching
the wrapping at the top of find_fleets. The id criterion and the
departure-time and ships and cargo criteria are never passed for event
lists (events carry no departure_time or cargo attribute) and are
omitted here; the id-based lookup for movement lists is embedded
separately below. -/
def find_fleets_events (fleets : List FleetEvent)
    (origin dest : Option (List Coordinates)) (mission : Option (List Mission))
    (arrival_time arrives_before arrives_after : Option Int)
    (is_return_flight : Option Bool) : List FleetEvent :=
  fleets.filter fun f =>
    listCritPasses origin f.origin &&
    listCritPasses dest f.dest &&
    listCritPasses mission f.mission &&
    intCritPasses arrival_time (fun v => f.arrival_time == v) &&
    intCritPasses arrives_before (fun v => f.arrival_time < v) &&
    intCritPasses arrives_after (fun v => v < f.arrival_time) &&
    (match is_return_flight with
     | none => true
     | some b => f.return_flight == b)

/-- Translation of only_probes (the local predicate of find_hostile_events
in bot/bot.py): there is information about the ships (a non-None,
non-empty dictionary), espionage_probe is one of its keys, and it has
exactly one key. -/
def only_probes (e : FleetEvent) : Bool :=
  match e.ships with
  | none => false
  | some l => !l.isEmpty && (l.map Prod.fst).contains Ship.espionage_probe && l.length == 1

/-- Mission kinds treated as hostile by find_hostile_events in
bot/bot.py. -/
def hostileMissions : List Mission :=
  [Mission.attack, Mission.acs_attack, Mission.destroy, Mission.espionage]

/-- Translation of find_hostile_events (bot/bot.py): filter the events by
destination (the coordinates of the given planets) and mission, then
drop fleets consisting solely of espionage probes. -/
def find_hostile_events (events : List FleetEvent) (planets : List Planet) : List FleetEvent :=
  let hostile := find_fleets_events events none (some (planets.map Planet.coords))
    (some hostileMissions) none none none none
  hostile.filter (fun e => !only_probes e)

/- ------------------------------------------------------------------ -/
/- Retry and backoff: OGameBot._do_work in bot/bot.py.                 -/
/- ------------------------------------------------------------------ -/

/-- The retry delay table of OGameBot (field _exc_retry_delays). -/
def excRetryDelays : List Nat := [5, 10, 15, 30, 60]

/-- Observable outcome of one call to OGameBot._do_work: the new
exception counter, whether the event was dropped without any work,
the scheduled retry wake (delay and event id) if any, and whether the
exception was re-raised. -/
structure DoWorkResult where
  excCount : Nat
  dropped : Bool
  scheduledRetry : Option (Nat × Nat)
  reraised : Bool
deriving DecidableEq, Repr

/-- Translation of OGameBot._do_work (bot/bot.py): when retrying after an
exception (counter positive), any event whose id differs from the fixed
retry sentinel id is ignored; otherwise the work runs, and on an
exception a retry wake carrying the sentinel id is pushed after the
delay excRetryDelays[min(counter, len - 1)], the counter is incremented
and the exception is re-raised, while on success the counter is reset
to 0. The raises argument abstracts whether the wake handling throws. -/
def doWork (retryEventId : Nat) (excCount : Nat) (eventId : Option Nat)
    (raises : Bool) : DoWorkResult :=
  if 0 < excCount ∧ eventId ≠ some retryEventId then
    { excCount := excCount, dropped := true, scheduledRetry := none, reraised := false }
  else if raises then
    { excCount := excCount + 1, dropped := false,
      scheduledRetry :=
        some (excRetryDelays.getD (min excCount (excRetryDelays.length - 1)) 0, retryEventId),
      reraised := true }
  else
    { excCount := 0, dropped := false, scheduledRetry := none, reraised := false }

/- ------------------------------------------------------------------ -/
/- Game-state cache: GameResourceManager in bot/bot.py.                -/
/- ------------------------------------------------------------------ -/

/-- The four memoised remote resources of GameResourceManager. -/
inductive RKind where
  | overview
  | events
  | movement
  | research
deriving DecidableEq, Repr

/-- State of GameResourceManager: the four cached values (None until first
fetched). Remote pages are abstracted as natural-number tokens. -/
structure GameResourceManager where
  overview : Option Nat
  events : Option Nat
  movement : Option Nat
  research : Option Nat
deriving DecidableEq, Repr

/-- A fresh GameResourceManager as built at the start of each wake-up
(its __init__ sets all four cache slots to None). -/
def GameResourceManager.initState : GameResourceManager :=
  { overview := none, events := none, movement := none, research := none }

/-- Result of one getter call: the returned value, the successor state,
and whether a remote fetch happened. -/
structure GetResult where
  value : Nat
  state : GameResourceManager
  fetched : Bool
deriving DecidableEq, Repr

/-- Translation of GameResourceManager.get_overview: fetch when the slot
is None or invalidate_cache is set, else return the cached value. -/
def getOverview (st : GameResourceManager) (invalidate_cache : Bool) (fresh : Nat) : GetResult :=
  if st.overview = none ∨ invalidate_cache = true then
    { value := fresh, state := { st with overview := some fresh }, fetched := true }
  else
    { value := st.overview.getD 0, state := st, fetched := false }

/-- Translation of GameResourceManager.get_events. -/
def getEvents (st : GameResourceManager) (invalidate_cache : Bool) (fresh : Nat) : GetResult :=
  if st.events = none ∨ invalidate_cache = true then
    { value := fresh, state := { st with events := some fresh }, fetched := true }
  else
    { value := st.events.getD 0, state := st, fetched := false }

/-- Translation of GameResourceManager.get_movement: fetch when the slot
is None, invalidate_cache is set, or a return_fleet argument was passed
(issuing a recall mutates the remote state, so the page is refetched). -/
def getMovement (st : GameResourceManager) (return_fleet : Option Nat)
    (invalidate_cache : Bool) (fresh : Nat) : GetResult :=
  if st.movement = none ∨ invalidate_cache = true ∨ return_fleet ≠ none then
    { value := fresh, state := { st with movement := some fresh }, fetched := true }
  else
    { value := st.movement.getD 0, state := st, fetched := false }

/-- Translation of GameResourceManager.get_research. -/
def getResearch (st : GameResourceManager) (invalidate_cache : Bool) (fresh : Nat) : GetResult :=
  if st.research = none ∨ invalidate_cache = true then
    { value := fresh, state := { st with research := some fresh }, fetched := true }
  else
    { value := st.research.getD 0, state := st, fetched := false }

/-- A getter call within one wake-up. -/
inductive CacheOp where
  | overviewOp (invalidate : Bool)
  | eventsOp (invalidate : Bool)
  | movementOp (returnFleet : Option Nat) (invalidate : Bool)
  | researchOp (invalidate : Bool)
deriving DecidableEq, Repr

/-- The resource a getter call reads. -/
def CacheOp.kind : CacheOp → RKind
  | .overviewOp _ => RKind.overview
  | .eventsOp _ => RKind.events
  | .movementOp _ _ => RKind.movement
  | .researchOp _ => RKind.research

/-- A plain getter call: no invalidate flag and no return_fleet argument
(that is, no mutating call and no forced refetch). -/
def CacheOp.plain : CacheOp → Bool
  | .overviewOp inv => !inv
  | .eventsOp inv => !inv
  | .movementOp ret inv => !inv && ret == none
  | .researchOp inv => !inv

/-- The cache slot for a resource. -/
def cacheSlot (st : GameResourceManager) : RKind → Option Nat
  | RKind.overview => st.overview
  | RKind.events => st.events
  | RKind.movement => st.movement
  | RKind.research => st.research

/-- Dispatch one getter call. -/
def applyCacheOp (st : GameResourceManager) (op : CacheOp) (fresh : Nat) : GetResult :=
  match op with
  | .overviewOp inv => getOverview st inv fresh
  | .eventsOp inv => getEvents st inv fresh
  | .movementOp ret inv => getMovement st ret inv fresh
  | .researchOp inv => getResearch st inv fresh

/-- Run a sequence of getter calls from a state, logging the kinds of the
remote fetches performed (fresh tokens are drawn from a counter). -/
def runCache : GameResourceManager → Nat → List CacheOp → GameResourceManager × List RKind
  | st, _, [] => (st, [])
  | st, k, op :: rest =>
    let r := applyCacheOp st op k
    let (st', log) := runCache r.state (k + 1) rest
    (st', (if r.fetched then [op.kind] else []) ++ log)

/- ------------------------------------------------------------------ -/
/- Defensive wake scheduling: OGameBot._handle_hostile_events,         -/
/- bot/bot.py lines 306 to 348.                                        -/
/- ------------------------------------------------------------------ -/

/-- A hostile event as seen by the wake-scheduling step: its arrival
time, the optional last friendly arrival computed for it, and the value
drawn by random.randint(min_time_before_attack_to_act,
max_time_before_attack_to_act) for it (randomness is modelled as an
input; the theorem assumes the randint bounds). -/
structure HostileInfo where
  arrival : Int
  lastFriendly : Option Int
  draw : Int
deriving DecidableEq, Repr

/-- Candidate wake-up time appended for one hostile event (the loop body
at bot/bot.py lines 316 to 338): with plenty of time, arrival minus the
random draw; when the attack is imminent and a friendly fleet is still
incoming (a truthy last friendly arrival), either arrival - 10 or the
friendly arrival + 1; otherwise a post-attack check at arrival + 1. -/
def defensiveWakeupTime (now _minAct maxAct : Int) (ev : HostileInfo) : Int :=
  if now < ev.arrival - maxAct then
    ev.arrival - ev.draw
  else
    match ev.lastFriendly with
    | some lfa =>
      if lfa = 0 then ev.arrival + 1  -- Python truthiness: a zero time counts as absent
      else if now < ev.arrival - 10 ∧ ev.arrival - 10 < lfa - 1 then ev.arrival - 10
      else lfa + 1
    | none => ev.arrival + 1
  -- the minAct parameter enters through the draw, whose randint bounds
  -- are minAct and maxAct

/-- Scheduling decision of the defensive pass (bot/bot.py lines 312 to
348): when there is at least one hostile event, compute the candidate
wake-up times, keep those strictly after the current time, and schedule
at their minimum if that minimum exists and is truthy. -/
def scheduleDefensiveWake (now minAct maxAct : Int) (events : List HostileInfo) : Option Int :=
  match events with
  | [] => none
  | _ :: _ =>
    let times := events.map (defensiveWakeupTime now minAct maxAct)
    let future := times.filter (fun t => decide (now < t))
    match future.min? with
    | none => none
    | some t => if t = 0 then none else some t  -- Python truthiness of the earliest time

/-- Cancellation of the previously scheduled defensive wake (bot/bot.py
lines 306 to 311): if a wake was scheduled earlier, it is cancelled
unless the wake currently being handled is that one. Returns the
cancelled scheduler id, if any. -/
def cancelPreviousWake (lastScheduled : Option (Nat × Nat)) (currentWakeId : Option Nat) :
    Option Nat :=
  match lastScheduled with
  | none => none
  | some (schedId, wakeId) => if currentWakeId ≠ some wakeId then some schedId else none

/- ------------------------------------------------------------------ -/
/- Saved-fleet table: OGameBot._handle_hostile_events, bot/bot.py      -/
/- lines 455 to 459 (creation) and 503 to 552 (recall pass).           -/
/- ------------------------------------------------------------------ -/

/-- The attack test of the recall pass: find_fleets(hostile_events,
dest=origin) with the origin planet wrapped into a singleton list, as
find_fleets does. -/
def findHostileAt (hostileEvents : List FleetEvent) (origin : Planet) : List FleetEvent :=
  find_fleets_events hostileEvents none (some [origin.coords]) none none none none none

/-- Environment of one recall pass over the saved-fleet table: the
current hostile events, the movement lookup for a fleet id (departure
time and return flag; None when the fleet is no longer flying), whether
a recall attempt for a fleet ends with the return flag set, the current
clock, and the configured max_return_flight_time. -/
structure SavedFleetEnv where
  hostileEvents : List FleetEvent
  fleetState : Nat → Option (Int × Bool)
  recallSucceeds : Nat → Bool
  now : Int
  maxReturnFlightTime : Int

/-- Flight-state part of one recall-loop iteration (bot/bot.py lines 515
to 552): a fleet that is gone from the movement page, already returning,
or whose outbound flight duration exceeds max_return_flight_time is
dropped; otherwise a recall is attempted and the record is dropped
exactly when the fleet ends up returning, kept when the recall fails. -/
def keepFlight (env : SavedFleetEnv) (fid : Nat) : Option (Int × Bool) → Bool
  | none => false
  | some (dep, ret) =>
    if ret then false
    else if env.maxReturnFlightTime < env.now - dep then false
    else if env.recallSucceeds fid then false
    else true

/-- One iteration of the recall loop (bot/bot.py lines 507 to 552),
deciding whether the table entry survives: an origin under attack defers
the record (kept); otherwise the flight-state checks of keepFlight run
on the movement lookup for the fleet id. -/
def keepSavedFleet (env : SavedFleetEnv) (fid : Nat) (origin : Planet) : Bool :=
  if !(findHostileAt env.hostileEvents origin).isEmpty then true
  else keepFlight env fid (env.fleetState fid)

/-- The recall pass over the saved-fleet table (iterated over a copy, so
modelled as a filter in insertion order). -/
def recallSavedFleetsPass (env : SavedFleetEnv) (table : List (Nat × Planet)) :
    List (Nat × Planet) :=
  table.filter (fun entry => keepSavedFleet env entry.1 entry.2)

/-- Creation of a saved-fleet record after a defensive dispatch
(bot/bot.py lines 452 to 463): the record is added only when the
movement verification matched exactly one fleet and
try_recalling_saved_fleet is enabled. This function models the state
update performed after a send_fleet call that returned success. -/
def recordSavedFleet (table : List (Nat × Planet)) (tryRecalling : Bool)
    (matchedFleetIds : List Nat) (origin : Planet) : List (Nat × Planet) :=
  match matchedFleetIds with
  | [fid] => if tryRecalling then table ++ [(fid, origin)] else table
  | _ => table

/-- Concrete planet used by the saved-fleet counterexample. -/
def cePlanet : Planet :=
  { id := 1, name := "P",
    coords := { galaxy := 1, system := 1, position := 1, type := CoordsType.planet } }

/-- Concrete hostile attack event on cePlanet used by the saved-fleet
counterexample. -/
def ceAttackEvent : FleetEvent :=
  { id := 9, origin := { galaxy := 2, system := 2, position := 2, type := CoordsType.planet },
    dest := cePlanet.coords, arrival_time := 1000, mission := Mission.attack,
    return_flight := false, ships := none, player_id := none }

/-- Concrete recall-pass environment in which cePlanet is under attack
while fleet 1 is still on a short outbound flight. -/
def ceEnv : SavedFleetEnv :=
  { hostileEvents := [ceAttackEvent],
    fleetState := fun _ => some (0, false),
    recallSucceeds := fun _ => false,
    now := 100,
    maxReturnFlightTime := 600 }

/- ------------------------------------------------------------------ -/
/- Expedition repeat lifecycle: OGameBot._handle_expeditions,          -/
/- bot/bot.py lines 559 to 595 (drain) and 712 to 716 (decrement).     -/
/- ------------------------------------------------------------------ -/

/-- State of a single expedition intent relevant to the repeat count:
the repeat counter (stored on the SendExpedition payload), the assigned
fleet id (stored on the Expedition record), whether the intent has been
removed from the table, and the error field of the ExpeditionFinished
notification if one was emitted (some none is a notification carrying
no error). -/
structure ExpeditionState where
  repeatCount : RepeatVal
  fleetId : Option Nat
  removed : Bool
  finishedError : Option (Option String)
deriving DecidableEq, Repr

/-- Truthiness of not find_fleets(movement.fleets, id=fleet_id): with a
concrete id the expression is true when no fleet carries that id; with
fleet_id None the Python call falls through to the unfiltered list
comprehension and returns every fleet, so the expression is true exactly
when the movement list is empty. -/
def expeditionFleetGone (movementFleetIds : List Nat) (fleetId : Option Nat) : Bool :=
  match fleetId with
  | some fid => !(movementFleetIds.contains fid)
  | none => movementFleetIds.isEmpty

/-- The finished-expedition drain for an intent with no pending cancel
(bot/bot.py lines 559 to 595): when the tracked fleet no longer appears
in the movement list, an intent whose repeat equals the integer 0 is
removed with an ExpeditionFinished notification carrying no error, and
any other intent has its fleet id reset so it is dispatched again. A
removed intent is no longer processed. -/
def finishCheck (st : ExpeditionState) (movementFleetIds : List Nat) : ExpeditionState :=
  if st.removed then st
  else if expeditionFleetGone movementFleetIds st.fleetId then
    if st.repeatCount = RepeatVal.int 0 then
      { st with removed := true, finishedError := some none }
    else
      { st with fleetId := none }
  else st

/-- Effect of a successful expedition dispatch (bot/bot.py lines 703 to
716 followed by the movement match at lines 729 to 745): the repeat
counter is decremented unless it is the string forever, and the newly
matched fleet id is assigned. -/
def dispatchSucceeded (st : ExpeditionState) (newFleetId : Option Nat) : ExpeditionState :=
  if st.removed then st
  else
    { st with
      repeatCount :=
        match st.repeatCount with
        | RepeatVal.forever => RepeatVal.forever
        | RepeatVal.int n => RepeatVal.int (n - 1),
      fleetId := newFleetId }

/-- A successful dispatch cycle: the fleet with the given id is sent and
uniquely matched, and at some later wake the movement list (second
component) no longer contains it, so the drain step runs. -/
def runCycles : ExpeditionState → List (Nat × List Nat) → ExpeditionState
  | st, [] => st
  | st, (fid, mv) :: rest => runCycles (finishCheck (dispatchSucceeded st (some fid)) mv) rest

/- ------------------------------------------------------------------ -/
/- Scheduler: bot/eventloop.py, a faithful embedding of the Event      -/
/- ordering and of the CPython heapq algorithms it uses (heappush,     -/
/- heappop, heapify with their _siftdown and _siftup helpers).         -/
/- ------------------------------------------------------------------ -/

/-- Scheduler event (bot/eventloop.py, class Event): id (a uuid4 hex
string, modelled as a natural number drawn from a fresh counter), the
absolute time (seconds, modelled as an integer), the priority and the
opaque payload. The period field is omitted: the queue operations
embedded here (push, cancel, the pop of an overdue event) never read it;
periodic reinsertion happens in main_loop, which is not modelled. -/
structure SEvent where
  id : Nat
  time : Int
  priority : Int
  data : Nat
deriving DecidableEq, Repr

/-- The strict comparison Event.__lt__ of bot/eventloop.py: the pair
(time, priority) compared lexicographically. This is the only comparison
the heapq algorithms invoke. -/
def eventLT (a b : SEvent) : Bool :=
  a.time < b.time || (a.time == b.time && a.priority < b.priority)

/-- The reflexive key order on events: (time, priority) compared
lexicographically. eventLT is its strict part. -/
def keyLE (a b : SEvent) : Prop :=
  a.time < b.time ∨ (a.time = b.time ∧ a.priority ≤ b.priority)

/-- Element of a heap list at an index (out-of-range reads never occur
along the heap algorithms; a default event keeps the functions total). -/
def nthEvent (l : List SEvent) (i : Nat) : SEvent :=
  (l.get? i).getD { id := 0, time := 0, priority := 0, data := 0 }

/-- Exchange the elements at two indices. -/
def swapEvents (l : List SEvent) (i j : Nat) : List SEvent :=
  (l.set i (nthEvent l j)).set j (nthEvent l i)

/-- Loop of heapq._siftdown (CPython, used by heappush and at the end of
_siftup): while pos is strictly below startpos on the parent chain and
the moved item compares strictly less than its parent, exchange them and
continue at the parent. CPython keeps the moved item in a local and
writes each displaced parent one level down before the final store; the
resulting list is exactly this iterated exchange. Structural fuel bounds
the iterations; fuel = initial pos always suffices since pos strictly
decreases. -/
def siftdownAux : Nat → List SEvent → Nat → Nat → List SEvent
  | 0, l, _, _ => l
  | fuel + 1, l, startpos, pos =>
    if startpos < pos then
      let parentpos := (pos - 1) / 2
      if eventLT (nthEvent l pos) (nthEvent l parentpos) then
        siftdownAux fuel (swapEvents l pos parentpos) startpos parentpos
      else l
    else l

/-- heapq._siftdown with sufficient fuel. -/
def siftdownLoop (l : List SEvent) (startpos pos : Nat) : List SEvent :=
  siftdownAux pos l startpos pos

/-- Loop of heapq._siftup (CPython): walk the moved item down to a leaf,
at each level promoting the chosen child (the right child whenever the
left one is not strictly less than it, else the left child), expressed
as an iterated exchange; returns the leaf position reached. Fuel =
length of the list always suffices since pos strictly increases and
stays below the length. -/
def siftupAux : Nat → List SEvent → Nat → List SEvent × Nat
  | 0, l, pos => (l, pos)
  | fuel + 1, l, pos =>
    let endpos := l.length
    let childpos := 2 * pos + 1
    if childpos < endpos then
      let rightpos := childpos + 1
      let c :=
        if rightpos < endpos ∧ ¬ eventLT (nthEvent l childpos) (nthEvent l rightpos) = true then
          rightpos
        else childpos
      siftupAux fuel (swapEvents l pos c) c
    else (l, pos)

/-- heapq._siftup (CPython): the down-walk to a leaf followed by
_siftdown bounded below by the original position. -/
def pysiftup (l : List SEvent) (pos : Nat) : List SEvent :=
  let r := siftupAux l.length l pos
  siftdownLoop r.1 pos r.2

/-- heapq.heappush: append the item and sift it up from the last slot. -/
def heappush (l : List SEvent) (e : SEvent) : List SEvent :=
  siftdownLoop (l ++ [e]) 0 l.length

/-- heapq.heappop: remove the last element; if the heap remains nonempty
put it at the root and run _siftup from position 0, returning the old
root. Returns None on an empty heap (CPython raises IndexError). -/
def heappop (l : List SEvent) : Option (SEvent × List SEvent) :=
  match l with
  | [] => none
  | [x] => some (x, [])
  | x :: y :: rest =>
    let full := x :: y :: rest
    let lastelt := full.getLastD { id := 0, time := 0, priority := 0, data := 0 }
    some (x, pysiftup (full.dropLast.set 0 lastelt) 0)

/-- Loop of heapq.heapify: run _siftup on positions n / 2 - 1 down to 0
(reversed(range(n // 2))); the argument counts the positions still to
process. -/
def heapifyLoop : List SEvent → Nat → List SEvent
  | l, 0 => l
  | l, k + 1 => heapifyLoop (pysiftup l k) k

/-- heapq.heapify. -/
def heapify (l : List SEvent) : List SEvent :=
  heapifyLoop l (l.length / 2)

/-- State of the Scheduler (bot/eventloop.py): the event queue (the heap
list) and the source of fresh event ids (uuid4 hex strings, modelled as
a counter so that every generated id is new). -/
structure SchedState where
  queue : List SEvent
  nextId : Nat
deriving DecidableEq, Repr

/-- A fresh scheduler (its __init__ creates an empty queue). -/
def SchedState.initState : SchedState := { queue := [], nextId := 0 }

/-- Scheduler.pushabs: construct an event with a fresh id and push it on
the heap. push(delay, ...) computes abstime = time.time() + delay and
calls this, so it is covered by choosing abstime accordingly. -/
def spushabs (st : SchedState) (abstime : Int) (priority : Int) (data : Nat) : SchedState :=
  { queue := heappush st.queue
      { id := st.nextId, time := abstime, priority := priority, data := data },
    nextId := st.nextId + 1 }

/-- Scheduler.cancel: keep the events whose id differs, then heapify.
Cancelling an id that is not present filters nothing out (but still
heapifies). -/
def scancel (st : SchedState) (eventId : Nat) : SchedState :=
  { st with queue := heapify (st.queue.filter (fun e => e.id ≠ eventId)) }

/-- Scheduler._pop: if the queue is nonempty and the root event is
overdue (event.time is at most the current time), pop and return it,
else return None. -/
def spop (st : SchedState) (now : Int) : Option SEvent × SchedState :=
  match st.queue with
  | [] => (none, st)
  | e :: _ =>
    if e.time ≤ now then
      match heappop st.queue with
      | some (_, rest) => (some e, { st with queue := rest })
      | none => (none, st)
    else (none, st)

/-- An operation on the scheduler: an absolute-time push, a cancellation
by handle, or a pop attempt at a given clock reading. -/
inductive SchedOp where
  | push (abstime priority : Int) (data : Nat)
  | cancel (eventId : Nat)
  | pop (now : Int)
deriving DecidableEq, Repr

/-- One scheduler operation: the successor state and the popped event,
if any. -/
def schedStep (st : SchedState) : SchedOp → SchedState × Option SEvent
  | SchedOp.push t p d => (spushabs st t p d, none)
  | SchedOp.cancel i => (scancel st i, none)
  | SchedOp.pop now =>
    let r := spop st now
    (r.2, r.1)

/-- Run a sequence of scheduler operations, logging the popped events in
order. -/
def runSched : SchedState → List SchedOp → SchedState × List SEvent
  | st, [] => (st, [])
  | st, op :: rest =>
    let r := schedStep st op
    let f := runSched r.1 rest
    (f.1, (match r.2 with
           | some e => [e]
           | none => []) ++ f.2)

/-- The scheduler state reached from a fresh scheduler by a sequence of
operations. -/
def stateAfter (ops : List SchedOp) : SchedState :=
  (runSched SchedState.initState ops).1

/-- The binary-heap invariant on the queue list: every element from
position 1 on is at least its parent at (i - 1) / 2 in the (time,
priority) order. -/
def IsHeap (l : List SEvent) : Prop :=
  ∀ c, 0 < c → c < l.length → keyLE (nthEvent l ((c - 1) / 2)) (nthEvent l c)

/-- Ancestor test on heap indices with structural fuel: fuel = i always
suffices since the index strictly decreases along the parent chain. -/
def underAux : Nat → Nat → Nat → Bool
  | 0, a, i => a == i
  | fuel + 1, a, i => if a = i then true else if i = 0 then false else underAux fuel a ((i - 1) / 2)

/-- a is an ancestor of i in the heap shape (that is, i lies in the
subtree rooted at a). -/
def under (a i : Nat) : Bool :=
  underAux i a i

end Cruiser

namespace Cruiser

/- ------------------------------------------------------------------ -/
/- Theorems                                                            -/
/- ------------------------------------------------------------------ -/

/-- C1: for free capacity C at least 0 and available amounts m, c, d at
least 0, get_cargo packs d then c then m greedily: the packed deuterium is
min(d, C), the packed crystal is min(c, C - packed-d), the packed metal is
min(m, C - packed-d - packed-c), and the total packed equals
min(C, m + c + d), with a resource absent from the result counting as 0. -/
theorem get_cargo_spec (res : Resource → Int) (C : Int)
    (hC : 0 ≤ C) (hm : 0 ≤ res Resource.metal)
    (hc : 0 ≤ res Resource.crystal) (hd : 0 ≤ res Resource.deuterium) :
    packedAmount (get_cargo res C) Resource.deuterium = min (res Resource.deuterium) C ∧
    packedAmount (get_cargo res C) Resource.crystal =
      min (res Resource.crystal) (C - min (res Resource.deuterium) C) ∧
    packedAmount (get_cargo res C) Resource.metal =
      min (res Resource.metal)
        (C - min (res Resource.deuterium) C -
          min (res Resource.crystal) (C - min (res Resource.deuterium) C)) ∧
    packedAmount (get_cargo res C) Resource.deuterium +
      packedAmount (get_cargo res C) Resource.crystal +
      packedAmount (get_cargo res C) Resource.metal =
      min C (res Resource.metal + res Resource.crystal + res Resource.deuterium) := by
  rcases le_or_lt C 0 with h0 | h0
  · have hC0 : C = 0 := le_antisymm h0 hC
    subst hC0
    have hl : get_cargo res 0 = [] := by
      simp [get_cargo, getCargoGo]
    rw [hl]
    have p0 : ∀ r, packedAmount [] r = 0 := fun _ => rfl
    rw [p0, p0, p0]
    refine ⟨by omega, by omega, by omega, by omega⟩
  · have h0' : ¬ C ≤ 0 := not_le.mpr h0
    rcases le_or_lt (C - min (res Resource.deuterium) C) 0 with h1 | h1
    · have hl : get_cargo res C = [(Resource.deuterium, min (res Resource.deuterium) C)] := by
        simp only [get_cargo, getCargoGo, if_neg h0', if_pos h1]
      rw [hl]
      have pd : packedAmount [(Resource.deuterium, min (res Resource.deuterium) C)]
          Resource.deuterium = min (res Resource.deuterium) C := rfl
      have pc : packedAmount [(Resource.deuterium, min (res Resource.deuterium) C)]
          Resource.crystal = 0 := rfl
      have pm : packedAmount [(Resource.deuterium, min (res Resource.deuterium) C)]
          Resource.metal = 0 := rfl
      rw [pd, pc, pm]
      refine ⟨by omega, by omega, by omega, by omega⟩
    · have h1' : ¬ (C - min (res Resource.deuterium) C) ≤ 0 := not_le.mpr h1
      rcases le_or_lt
          (C - min (res Resource.deuterium) C -
            min (res Resource.crystal) (C - min (res Resource.deuterium) C)) 0 with h2 | h2
      · have hl : get_cargo res C =
            [(Resource.deuterium, min (res Resource.deuterium) C),
             (Resource.crystal, min (res Resource.crystal) (C - min (res Resource.deuterium) C))] := by
          simp only [get_cargo, getCargoGo, if_neg h0', if_neg h1', if_pos h2]
        rw [hl]
        have pd : packedAmount
            [(Resource.deuterium, min (res Resource.deuterium) C),
             (Resource.crystal, min (res Resource.crystal) (C - min (res Resource.deuterium) C))]
            Resource.deuterium = min (res Resource.deuterium) C := rfl
        have pc : packedAmount
            [(Resource.deuterium, min (res Resource.deuterium) C),
             (Resource.crystal, min (res Resource.crystal) (C - min (res Resource.deuterium) C))]
            Resource.crystal = min (res Resource.crystal) (C - min (res Resource.deuterium) C) := rfl
        have pm : packedAmount
            [(Resource.deuterium, min (res Resource.deuterium) C),
             (Resource.crystal, min (res Resource.crystal) (C - min (res Resource.deuterium) C))]
            Resource.metal = 0 := rfl
        rw [pd, pc, pm]
        refine ⟨by omega, by omega, by omega, by omega⟩
      · have h2' : ¬ (C - min (res Resource.deuterium) C -
            min (res Resource.crystal) (C - min (res Resource.deuterium) C)) ≤ 0 := not_le.mpr h2
        have hl : get_cargo res C =
            [(Resource.deuterium, min (res Resource.deuterium) C),
             (Resource.crystal, min (res Resource.crystal) (C - min (res Resource.deuterium) C)),
             (Resource.metal,
               min (res Resource.metal)
                 (C - min (res Resource.deuterium) C -
                   min (res Resource.crystal) (C - min (res Resource.deuterium) C)))] := by
          simp only [get_cargo, getCargoGo, if_neg h0', if_neg h1', if_neg h2']
        rw [hl]
        have pd : packedAmount
            [(Resource.deuterium, min (res Resource.deuterium) C),
             (Resource.crystal, min (res Resource.crystal) (C - min (res Resource.deuterium) C)),
             (Resource.metal,
               min (res Resource.metal)
                 (C - min (res Resource.deuterium) C -
                   min (res Resource.crystal) (C - min (res Resource.deuterium) C)))]
            Resource.deuterium = min (res Resource.deuterium) C := rfl
        have pc : packedAmount
            [(Resource.deuterium, min (res Resource.deuterium) C),
             (Resource.crystal, min (res Resource.crystal) (C - min (res Resource.deuterium) C)),
             (Resource.metal,
               min (res Resource.metal)
                 (C - min (res Resource.deuterium) C -
                   min (res Resource.crystal) (C - min (res Resource.deuterium) C)))]
            Resource.crystal = min (res Resource.crystal) (C - min (res Resource.deuterium) C) := rfl
        have pm : packedAmount
            [(Resource.deuterium, min (res Resource.deuterium) C),
             (Resource.crystal, min (res Resource.crystal) (C - min (res Resource.deuterium) C)),
             (Resource.metal,
               min (res Resource.metal)
                 (C - min (res Resource.deuterium) C -
                   min (res Resource.crystal) (C - min (res Resource.deuterium) C)))]
            Resource.metal =
              min (res Resource.metal)
                (C - min (res Resource.deuterium) C -
                  min (res Resource.crystal) (C - min (res Resource.deuterium) C)) := rfl
        rw [pd, pc, pm]
        refine ⟨by omega, by omega, by omega, by omega⟩

/-- C1 witness: evaluate the cargo packing spec at C = 10, m = 20, c = 3,
d = 4. -/
theorem get_cargo_spec_witness :
    packedAmount (get_cargo
        (fun r => match r with
          | Resource.metal => 20 | Resource.crystal => 3
          | Resource.deuterium => 4 | _ => 0) 10) Resource.deuterium = 4 := by
  have h := get_cargo_spec
    (fun r => match r with
      | Resource.metal => 20 | Resource.crystal => 3
      | Resource.deuterium => 4 | _ => 0) 10
    (by norm_num) (by norm_num) (by norm_num) (by norm_num)
  simpa using h.1

/-- Helper: a list criterion with a nonempty criterion list passes
exactly the members of the criterion list. -/
theorem listCritPasses_some {α : Type} [DecidableEq α] (l : List α) (x : α) (hl : l ≠ []) :
    listCritPasses (some l) x = true ↔ x ∈ l := by
  have : l.isEmpty = false := by simpa using hl
  simp [listCritPasses, this, List.contains]

/-- Helper: only_probes holds exactly when the ship dictionary is known
and its single entry has key espionage_probe (with any amount). -/
theorem only_probes_iff (e : FleetEvent) :
    only_probes e = true ↔ ∃ n, e.ships = some [(Ship.espionage_probe, n)] := by
  cases hs : e.ships with
  | none => simp [only_probes, hs]
  | some l =>
    cases l with
    | nil => simp [only_probes, hs]
    | cons p rest =>
      cases rest with
      | nil =>
        obtain ⟨s, a⟩ := p
        constructor
        · intro h
          simp [only_probes, hs, List.contains] at h
          exact ⟨a, by simp [h]⟩
        · rintro ⟨n, hn⟩
          simp at hn
          simp [only_probes, hs, hn.1, List.contains]
      | cons q rest' =>
        constructor
        · intro h
          exfalso
          simp [only_probes, hs] at h
        · rintro ⟨n, hn⟩
          simp at hn

/-- Helper: membership in find_hostile_events, in terms of the raw filter
conditions of find_fleets. -/
theorem mem_find_hostile_events (events : List FleetEvent) (planets : List Planet)
    (e : FleetEvent) :
    e ∈ find_hostile_events events planets ↔
      e ∈ events ∧
      listCritPasses (some (planets.map Planet.coords)) e.dest = true ∧
      e.mission ∈ hostileMissions ∧
      only_probes e = false := by
  have hmiss : ∀ f : FleetEvent,
      listCritPasses (some hostileMissions) f.mission = true ↔ f.mission ∈ hostileMissions :=
    fun f => listCritPasses_some _ _ (by simp [hostileMissions])
  unfold find_hostile_events find_fleets_events
  rw [List.mem_filter, List.mem_filter]
  simp only [Bool.and_eq_true, Bool.not_eq_true']
  rw [hmiss]
  simp only [listCritPasses, intCritPasses]
  tauto

/-- C5 counterexample: with an empty player-planet list the Python
truthiness test (not dest) lets every destination pass, so an attack
event aimed at an arbitrary coordinate is returned as hostile even
though its destination is not one of the player's (zero) planets; the
claim, quantified over every planet list, therefore fails. -/
theorem find_hostile_events_empty_planets_counterexample :
    find_hostile_events [ceAttackEvent] [] = [ceAttackEvent] ∧
    ceAttackEvent.dest ∉ ([] : List Planet).map Planet.coords := by
  constructor
  · rfl
  · simp

/-- C5 (amended: the player-planet list is nonempty, as it always is for
a logged-in account): find_hostile_events returns exactly the events
whose mission is attack, acs_attack, destroy or espionage and whose
destination is one of the player's planets or moons, excluding fleets
composed solely of espionage probes; in particular an event whose only
listed ship type is espionage_probe is never returned. -/
theorem find_hostile_events_spec (events : List FleetEvent) (planets : List Planet)
    (hne : planets ≠ []) :
    (∀ e : FleetEvent,
      e ∈ find_hostile_events events planets ↔
        e ∈ events ∧
        (e.mission = Mission.attack ∨ e.mission = Mission.acs_attack ∨
         e.mission = Mission.destroy ∨ e.mission = Mission.espionage) ∧
        e.dest ∈ planets.map Planet.coords ∧
        ¬ ∃ n, e.ships = some [(Ship.espionage_probe, n)]) ∧
    (∀ (e : FleetEvent) (n : Int), e.ships = some [(Ship.espionage_probe, n)] →
      e ∉ find_hostile_events events planets) := by
  have hmap : planets.map Planet.coords ≠ [] := by
    simpa using hne
  constructor
  · intro e
    rw [mem_find_hostile_events, listCritPasses_some _ _ hmap]
    constructor
    · rintro ⟨he, hdest, hmission, hprobes⟩
      refine ⟨he, ?_, hdest, ?_⟩
      · simpa [hostileMissions] using hmission
      · rw [← only_probes_iff]
        simp [hprobes]
    · rintro ⟨he, hmission, hdest, hships⟩
      refine ⟨he, hdest, ?_, ?_⟩
      · simpa [hostileMissions] using hmission
      · rw [← Bool.not_eq_true, only_probes_iff]
        exact hships
  · intro e n hships hmem
    rw [mem_find_hostile_events] at hmem
    have := hmem.2.2.2
    rw [← Bool.not_eq_true, only_probes_iff] at this
    exact this ⟨n, hships⟩

/-- C5 witness: on a single attack event against the player's only
planet, find_hostile_events returns that event. -/
theorem find_hostile_events_spec_witness :
    ceAttackEvent ∈ find_hostile_events [ceAttackEvent] [cePlanet] := by
  have h := (find_hostile_events_spec [ceAttackEvent] [cePlanet] (by simp)).1 ceAttackEvent
  rw [h]
  refine ⟨by simp, by simp [ceAttackEvent], by simp [ceAttackEvent, cePlanet], by
    simp [ceAttackEvent]⟩

/-- C10: for an event in the list with a hostile mission and a
destination among the player's planets, the event is excluded from
find_hostile_events exactly when its ship composition is a known
non-empty dictionary whose single key is espionage_probe, regardless of
the recorded amount (including zero); an event with unknown ships (no
hover tooltip, ships None) is always classified as hostile, and a
composition listing espionage probes together with any other ship type,
even with amount zero, is also classified as hostile. -/
theorem probes_only_exclusion_spec (events : List FleetEvent) (planets : List Planet)
    (e : FleetEvent) (he : e ∈ events) (hm : e.mission ∈ hostileMissions)
    (hd : e.dest ∈ planets.map Planet.coords) :
    (e ∉ find_hostile_events events planets ↔
      ∃ n, e.ships = some [(Ship.espionage_probe, n)]) ∧
    (e.ships = none → e ∈ find_hostile_events events planets) ∧
    (∀ (s : Ship) (n m : Int), s ≠ Ship.espionage_probe →
      e.ships = some [(Ship.espionage_probe, n), (s, m)] →
      e ∈ find_hostile_events events planets) := by
  have hdestpass : listCritPasses (some (planets.map Planet.coords)) e.dest = true := by
    have hmapne : planets.map Planet.coords ≠ [] := by
      intro h
      rw [h] at hd
      simp at hd
    rw [listCritPasses_some _ _ hmapne]
    exact hd
  have hmem : e ∈ find_hostile_events events planets ↔ only_probes e = false := by
    rw [mem_find_hostile_events]
    constructor
    · rintro ⟨_, _, _, h⟩
      exact h
    · intro h
      exact ⟨he, hdestpass, hm, h⟩
  refine ⟨?_, ?_, ?_⟩
  · rw [hmem, ← only_probes_iff]
    simp
  · intro hships
    rw [hmem, ← Bool.not_eq_true, only_probes_iff]
    rintro ⟨n, hn⟩
    rw [hships] at hn
    exact Option.noConfusion hn
  · intro s n m hs hships
    rw [hmem, ← Bool.not_eq_true, only_probes_iff]
    rintro ⟨k, hk⟩
    rw [hships] at hk
    have := Option.some.inj hk
    simp at this
  -- the final simp derives a contradiction from equating a two-entry
  -- list with a one-entry list

/-- C10 witness: an attack event with unknown ship composition against
the player's only planet is classified as hostile. -/
theorem probes_only_exclusion_spec_witness :
    ceAttackEvent ∈ find_hostile_events [ceAttackEvent] [cePlanet] ∧
    ceAttackEvent.ships = none := by
  have h := probes_only_exclusion_spec [ceAttackEvent] [cePlanet] ceAttackEvent
    (by simp) (by simp [ceAttackEvent, hostileMissions]) (by simp [ceAttackEvent, cePlanet])
  exact ⟨h.2.1 rfl, rfl⟩

/-- C2: the SendExpedition dataclass declared in bot/protocol.py has no
speed field and no cargo field, yet _initialize_expedition in
bot/configparser.py passes keyword arguments speed and cargo to its
constructor (raising TypeError on any configured expedition), and
_handle_expeditions in bot/bot.py reads the attributes speed and cargo
from the stored payload (raising AttributeError). This theorem records
the mismatch between the declared fields and the names used by the
constructor call and the attribute reads. -/
theorem sendExpedition_missing_speed_cargo :
    "speed" ∈ buildExpeditionKwargNames ∧ "cargo" ∈ buildExpeditionKwargNames ∧
    "speed" ∈ handleExpeditionsDataAttrNames ∧ "cargo" ∈ handleExpeditionsDataAttrNames ∧
    "speed" ∉ sendExpeditionFieldNames ∧ "cargo" ∉ sendExpeditionFieldNames := by
  refine ⟨?_, ?_, ?_, ?_, ?_, ?_⟩ <;> decide

/-- C4: retry and backoff discipline of the decision loop. While the
error counter is positive, every wake-up whose id differs from the
sentinel retry id is dropped without any work. When the work raises, a
retry wake carrying the sentinel id is scheduled after the delay
[5, 10, 15, 30, 60][min(error-count, 4)] seconds, the counter is
incremented and the exception re-raised. When the work completes, the
counter resets to 0. -/
theorem retry_backoff_spec (retryId c : Nat) (eid : Option Nat) (r : Bool) :
    (0 < c → eid ≠ some retryId →
      doWork retryId c eid r =
        { excCount := c, dropped := true, scheduledRetry := none, reraised := false }) ∧
    ((c = 0 ∨ eid = some retryId) → r = true →
      doWork retryId c eid r =
        { excCount := c + 1, dropped := false,
          scheduledRetry := some ([5, 10, 15, 30, 60].getD (min c 4) 0, retryId),
          reraised := true }) ∧
    ((c = 0 ∨ eid = some retryId) → r = false →
      doWork retryId c eid r =
        { excCount := 0, dropped := false, scheduledRetry := none, reraised := false }) := by
  refine ⟨?_, ?_, ?_⟩
  · intro hc hid
    rw [doWork, if_pos ⟨hc, hid⟩]
  · intro hcase hr
    subst hr
    have hneg : ¬ (0 < c ∧ eid ≠ some retryId) := by
      rcases hcase with h | h
      · subst h
        simp
      · simp [h]
    rw [doWork, if_neg hneg, if_pos rfl]
    rfl
  · intro hcase hr
    subst hr
    have hneg : ¬ (0 < c ∧ eid ≠ some retryId) := by
      rcases hcase with h | h
      · subst h
        simp
      · simp [h]
    rw [doWork, if_neg hneg]
    simp

/-- C4 witness: with error count 2, a non-sentinel wake is dropped
unchanged, and a failing sentinel wake schedules a 15-second retry. -/
theorem retry_backoff_spec_witness :
    doWork 7 2 (some 3) true =
      { excCount := 2, dropped := true, scheduledRetry := none, reraised := false } ∧
    doWork 7 2 (some 7) true =
      { excCount := 3, dropped := false, scheduledRetry := some (15, 7), reraised := true } ∧
    doWork 7 2 (some 7) false =
      { excCount := 0, dropped := false, scheduledRetry := none, reraised := false } := by
  refine ⟨?_, ?_, ?_⟩
  · exact (retry_backoff_spec 7 2 (some 3) true).1 (by decide) (by decide)
  · exact (retry_backoff_spec 7 2 (some 7) true).2.1 (Or.inr rfl) rfl
  · exact (retry_backoff_spec 7 2 (some 7) false).2.2 (Or.inr rfl) rfl

/-- Helper: applying a getter never clears a cache slot, and a plain
getter leaves every slot unchanged unless it fills it. -/
theorem applyCacheOp_slot (st : GameResourceManager) (op : CacheOp) (k : Nat) (r : RKind) :
    cacheSlot (applyCacheOp st op k).state r =
      if (applyCacheOp st op k).fetched = true ∧ op.kind = r then some k
      else cacheSlot st r := by
  cases op with
  | overviewOp inv =>
    rw [applyCacheOp, getOverview]
    split_ifs with h1 h2 h2 <;>
      first
        | (obtain ⟨_, hk⟩ := h2; cases hk; rfl)
        | (cases r <;> simp_all [CacheOp.kind, cacheSlot])
  | eventsOp inv =>
    rw [applyCacheOp, getEvents]
    split_ifs with h1 h2 h2 <;>
      first
        | (obtain ⟨_, hk⟩ := h2; cases hk; rfl)
        | (cases r <;> simp_all [CacheOp.kind, cacheSlot])
  | movementOp ret inv =>
    rw [applyCacheOp, getMovement]
    split_ifs with h1 h2 h2 <;>
      first
        | (obtain ⟨_, hk⟩ := h2; cases hk; rfl)
        | (cases r <;> simp_all [CacheOp.kind, cacheSlot])
  | researchOp inv =>
    rw [applyCacheOp, getResearch]
    split_ifs with h1 h2 h2 <;>
      first
        | (obtain ⟨_, hk⟩ := h2; cases hk; rfl)
        | (cases r <;> simp_all [CacheOp.kind, cacheSlot])

/-- Helper: a plain getter call on a filled slot performs no fetch and
returns the cached value with the state unchanged. -/
theorem applyCacheOp_cached (st : GameResourceManager) (op : CacheOp) (k v : Nat)
    (hplain : op.plain = true) (hslot : cacheSlot st op.kind = some v) :
    applyCacheOp st op k = { value := v, state := st, fetched := false } := by
  cases op with
  | overviewOp inv =>
    have hinv : inv = false := by simpa [CacheOp.plain] using hplain
    subst hinv
    simp only [cacheSlot, CacheOp.kind] at hslot
    rw [applyCacheOp, getOverview, if_neg (by simp [hslot])]
    simp [hslot]
  | eventsOp inv =>
    have hinv : inv = false := by simpa [CacheOp.plain] using hplain
    subst hinv
    simp only [cacheSlot, CacheOp.kind] at hslot
    rw [applyCacheOp, getEvents, if_neg (by simp [hslot])]
    simp [hslot]
  | movementOp ret inv =>
    have hri : inv = false ∧ ret = none := by
      simp [CacheOp.plain] at hplain
      exact ⟨hplain.1, hplain.2⟩
    obtain ⟨hinv, hret⟩ := hri
    subst hinv
    subst hret
    simp only [cacheSlot, CacheOp.kind] at hslot
    rw [applyCacheOp, getMovement, if_neg (by simp [hslot])]
    simp [hslot]
  | researchOp inv =>
    have hinv : inv = false := by simpa [CacheOp.plain] using hplain
    subst hinv
    simp only [cacheSlot, CacheOp.kind] at hslot
    rw [applyCacheOp, getResearch, if_neg (by simp [hslot])]
    simp [hslot]

/-- Helper: a getter call on an empty slot performs a fetch. -/
theorem applyCacheOp_first (st : GameResourceManager) (op : CacheOp) (k : Nat)
    (hslot : cacheSlot st op.kind = none) :
    (applyCacheOp st op k).fetched = true ∧ (applyCacheOp st op k).value = k := by
  cases op with
  | overviewOp inv =>
    simp [cacheSlot, CacheOp.kind] at hslot
    rw [applyCacheOp, getOverview, if_pos (Or.inl hslot)]
    exact ⟨rfl, rfl⟩
  | eventsOp inv =>
    simp [cacheSlot, CacheOp.kind] at hslot
    rw [applyCacheOp, getEvents, if_pos (Or.inl hslot)]
    exact ⟨rfl, rfl⟩
  | movementOp ret inv =>
    simp [cacheSlot, CacheOp.kind] at hslot
    rw [applyCacheOp, getMovement, if_pos (Or.inl hslot)]
    exact ⟨rfl, rfl⟩
  | researchOp inv =>
    simp [cacheSlot, CacheOp.kind] at hslot
    rw [applyCacheOp, getResearch, if_pos (Or.inl hslot)]
    exact ⟨rfl, rfl⟩

/-- Helper: in a run of plain getter calls, a resource whose slot is
already filled is never fetched. -/
theorem runCache_plain_filled (ops : List CacheOp) :
    ∀ st k r, (∀ op ∈ ops, op.plain = true) → cacheSlot st r ≠ none →
      (runCache st k ops).2.count r = 0 := by
  induction ops with
  | nil =>
    intro st k r _ _
    rfl
  | cons op rest ih =>
    intro st k r hplain hfilled
    have hop : op.plain = true := hplain op (by simp)
    have hrest : ∀ o ∈ rest, o.plain = true := fun o ho => hplain o (by simp [ho])
    have hslot := applyCacheOp_slot st op k r
    cases hcase : cacheSlot st op.kind with
    | none =>
      have hkr : op.kind ≠ r := by
        intro h
        rw [h] at hcase
        exact hfilled hcase
      have hslot2 : cacheSlot (applyCacheOp st op k).state r ≠ none := by
        rw [hslot]
        split_ifs with h
        · simp
        · exact hfilled
      have htail := ih (applyCacheOp st op k).state (k + 1) r hrest hslot2
      simp only [runCache]
      rw [List.count_append, htail]
      split_ifs with hf
      · simp [List.count_singleton, hkr]
      · rfl
    | some v =>
      have hnofetch := applyCacheOp_cached st op k v hop hcase
      have hslot2 : cacheSlot (applyCacheOp st op k).state r ≠ none := by
        rw [hnofetch]
        exact hfilled
      have htail := ih (applyCacheOp st op k).state (k + 1) r hrest hslot2
      simp only [runCache]
      rw [List.count_append, htail]
      rw [hnofetch]
      rfl

/-- Helper: in a run of plain getter calls from any state, each resource
is fetched at most once. -/
theorem runCache_plain_once (ops : List CacheOp) :
    ∀ st k r, (∀ op ∈ ops, op.plain = true) → (runCache st k ops).2.count r ≤ 1 := by
  induction ops with
  | nil =>
    intro st k r _
    simp [runCache]
  | cons op rest ih =>
    intro st k r hplain
    have hrest : ∀ o ∈ rest, o.plain = true := fun o ho => hplain o (by simp [ho])
    have hslot := applyCacheOp_slot st op k r
    simp only [runCache]
    rw [List.count_append]
    split_ifs with hf
    · by_cases hkr : op.kind = r
      · have hslot2 : cacheSlot (applyCacheOp st op k).state r ≠ none := by
          rw [hslot]
          split_ifs with h
          · simp
          · exact absurd ⟨hf, hkr⟩ h
        have htail := runCache_plain_filled rest (applyCacheOp st op k).state (k + 1) r
          hrest hslot2
        rw [htail]
        simp [List.count_singleton, hkr]
      · have htail := ih (applyCacheOp st op k).state (k + 1) r hrest
        have hz : List.count r [op.kind] = 0 := by
          simp [List.count_cons, List.count_nil, beq_iff_eq, hkr]
        omega
    · have htail := ih (applyCacheOp st op k).state (k + 1) r hrest
      simpa using htail

/-- C9: cache discipline of the per-wake GameResourceManager. Every
getter fetches when its slot is empty and returns the cached value with
no fetch on later plain calls; passing invalidate_cache, or a
return_fleet argument to get_movement, forces a refetch in any state (in
particular the movement reads issued right after every send_fleet, which
pass invalidate_cache at bot/bot.py lines 441, 727 and 826, are uncached
fetches); and in a run of plain getter calls from a fresh manager each
of the four resources is remotely fetched at most once. -/
theorem cache_discipline_spec :
    (∀ (st : GameResourceManager) (op : CacheOp) (k : Nat),
      cacheSlot st op.kind = none →
      (applyCacheOp st op k).fetched = true ∧ (applyCacheOp st op k).value = k) ∧
    (∀ (st : GameResourceManager) (op : CacheOp) (k v : Nat),
      op.plain = true → cacheSlot st op.kind = some v →
      applyCacheOp st op k = { value := v, state := st, fetched := false }) ∧
    (∀ (st : GameResourceManager) (inv : Bool) (ret : Option Nat) (k : Nat),
      inv = true ∨ ret ≠ none → (getMovement st ret inv k).fetched = true) ∧
    (∀ (st : GameResourceManager) (k : Nat),
      (getOverview st true k).fetched = true ∧ (getEvents st true k).fetched = true ∧
      (getResearch st true k).fetched = true) ∧
    (∀ (ops : List CacheOp) (r : RKind), (∀ op ∈ ops, op.plain = true) →
      (runCache GameResourceManager.initState 0 ops).2.count r ≤ 1) := by
  refine ⟨applyCacheOp_first, applyCacheOp_cached, ?_, ?_, ?_⟩
  · intro st inv ret k h
    rw [getMovement]
    rcases h with h | h
    · rw [if_pos (Or.inr (Or.inl h))]
    · rw [if_pos (Or.inr (Or.inr h))]
  · intro st k
    refine ⟨?_, ?_, ?_⟩
    · rw [getOverview, if_pos (Or.inr rfl)]
    · rw [getEvents, if_pos (Or.inr rfl)]
    · rw [getResearch, if_pos (Or.inr rfl)]
  · intro ops r hplain
    exact runCache_plain_once ops GameResourceManager.initState 0 r hplain

/-- C9 witness: a movement read with the invalidate flag is an uncached
fetch even when the slot is filled, and a run of four plain getter calls
with a repeated overview read fetches overview exactly once. -/
theorem cache_discipline_spec_witness :
    (getMovement ⟨some 1, some 2, some 3, some 4⟩ none true 9).fetched = true ∧
    (runCache GameResourceManager.initState 0
        [CacheOp.overviewOp false, CacheOp.overviewOp false]).2.count RKind.overview ≤ 1 := by
  constructor
  · exact cache_discipline_spec.2.2.1 ⟨some 1, some 2, some 3, some 4⟩ true none 9 (Or.inl rfl)
  · exact cache_discipline_spec.2.2.2.2
      [CacheOp.overviewOp false, CacheOp.overviewOp false] RKind.overview (by decide)

/-- Helper: characterization of the minimum of a list of integers. -/
theorem int_min?_eq_some_iff (xs : List Int) (a : Int) :
    xs.min? = some a ↔ a ∈ xs ∧ ∀ b ∈ xs, a ≤ b := by
  letI : Std.Antisymm ((· : Int) ≤ ·) := ⟨fun h1 h2 => le_antisymm h1 h2⟩
  exact List.min?_eq_some_iff (fun x => le_refl x) (fun x y => min_choice x y)
    (fun x y z => le_min_iff)

/-- C6: the defensive wake scheduling step. For a hostile event whose
earliest save time (arrival minus max_time_before_attack_to_act) lies in
the future, the candidate wake time is arrival minus a randint draw and
so lies in [arrival - max, arrival - min]; the pass schedules exactly
the minimum of the candidates strictly after the clock, schedules
nothing when no candidate is in the future, and the scheduled time is
always strictly in the future; a previously scheduled defensive wake is
cancelled exactly when the current wake is not that one. -/
theorem hostile_wake_scheduling_spec (now minAct maxAct : Int) (events : List HostileInfo)
    (hnow : 0 ≤ now) (hne : events ≠ [])
    (hdraw : ∀ ev ∈ events, minAct ≤ ev.draw ∧ ev.draw ≤ maxAct) :
    (∀ ev ∈ events, now < ev.arrival - maxAct →
      ev.arrival - maxAct ≤ defensiveWakeupTime now minAct maxAct ev ∧
      defensiveWakeupTime now minAct maxAct ev ≤ ev.arrival - minAct) ∧
    (∀ t, scheduleDefensiveWake now minAct maxAct events = some t →
      now < t ∧ t ∈ events.map (defensiveWakeupTime now minAct maxAct) ∧
      ∀ u ∈ events.map (defensiveWakeupTime now minAct maxAct), now < u → t ≤ u) ∧
    (scheduleDefensiveWake now minAct maxAct events = none ↔
      ∀ u ∈ events.map (defensiveWakeupTime now minAct maxAct), u ≤ now) ∧
    (∀ (schedId wakeId : Nat) (cur : Option Nat),
      cancelPreviousWake (some (schedId, wakeId)) cur = some schedId ↔ cur ≠ some wakeId) := by
  obtain ⟨e0, rest, rfl⟩ : ∃ e0 rest, events = e0 :: rest := by
    cases events with
    | nil => exact absurd rfl hne
    | cons a l => exact ⟨a, l, rfl⟩
  refine ⟨?_, ?_, ?_, ?_⟩
  · intro ev hev hfut
    have hd := hdraw ev hev
    rw [defensiveWakeupTime, if_pos hfut]
    omega
  · intro t ht
    rw [scheduleDefensiveWake] at ht
    set times := (e0 :: rest).map (defensiveWakeupTime now minAct maxAct) with htimes
    cases hmin : (times.filter (fun t => decide (now < t))).min? with
    | none =>
      rw [hmin] at ht
      exact Option.noConfusion ht
    | some u =>
      rw [hmin] at ht
      have ht' : (if u = 0 then none else some u) = some t := ht
      by_cases hu : u = 0
      · rw [if_pos hu] at ht'
        exact Option.noConfusion ht'
      · rw [if_neg hu] at ht'
        have htu : u = t := Option.some.inj ht'
        subst htu
        rw [int_min?_eq_some_iff] at hmin
        obtain ⟨hmem, hle⟩ := hmin
        rw [List.mem_filter] at hmem
        have hlt : now < u := of_decide_eq_true hmem.2
        refine ⟨hlt, hmem.1, ?_⟩
        intro b hb hbnow
        exact hle b (List.mem_filter.mpr ⟨hb, decide_eq_true hbnow⟩)
  · rw [scheduleDefensiveWake]
    set times := (e0 :: rest).map (defensiveWakeupTime now minAct maxAct) with htimes
    constructor
    · intro hnone u hu
      cases hmin : (times.filter (fun t => decide (now < t))).min? with
      | none =>
        rw [List.min?_eq_none_iff] at hmin
        by_contra hcon
        have : u ∈ times.filter (fun t => decide (now < t)) :=
          List.mem_filter.mpr ⟨hu, decide_eq_true (by omega)⟩
        rw [hmin] at this
        exact absurd this (List.not_mem_nil u)
      | some v =>
        rw [hmin] at hnone
        have hnone' : (if v = 0 then none else some v) = (none : Option Int) := hnone
        by_cases hv : v = 0
        · exfalso
          subst hv
          rw [int_min?_eq_some_iff] at hmin
          have hmem2 := List.mem_filter.mp hmin.1
          have hlt : now < 0 := of_decide_eq_true hmem2.2
          omega
        · rw [if_neg hv] at hnone'
          exact Option.noConfusion hnone'
    · intro hall
      have hfil : times.filter (fun t => decide (now < t)) = [] := by
        rw [List.filter_eq_nil_iff]
        intro a ha
        have := hall a ha
        simp only [decide_eq_true_eq]
        omega
      rw [hfil]
      rfl
  · intro schedId wakeId cur
    rw [cancelPreviousWake]
    by_cases h : cur ≠ some wakeId
    · rw [if_pos h]
      simp [h]
    · rw [if_neg h]
      simp
      exact not_not.mp h

/-- C6 witness: with the default 120 and 180 second window, one hostile
event arriving at time 1000 seen at time 100 with a draw of 150 yields a
scheduled defensive wake at 850, which is strictly in the future,
belongs to the candidate list and is minimal among future candidates. -/
theorem hostile_wake_scheduling_spec_witness :
    (100 : Int) < 850 ∧
    (850 : Int) ∈ ([{ arrival := 1000, lastFriendly := none, draw := 150 }] :
      List HostileInfo).map (defensiveWakeupTime 100 120 180) ∧
    ∀ u ∈ ([{ arrival := 1000, lastFriendly := none, draw := 150 }] :
      List HostileInfo).map (defensiveWakeupTime 100 120 180), 100 < u → 850 ≤ u := by
  have h := hostile_wake_scheduling_spec 100 120 180
    [{ arrival := 1000, lastFriendly := none, draw := 150 }]
    (by norm_num) (by simp)
    (by
      intro ev hev
      simp at hev
      rw [hev]
      norm_num)
  exact h.2.1 850 rfl

/-- C7 counterexample: the saved-fleet table keeps (defers) a record
whose origin is again under hostile attack, so at a reachable point
right after a recall pass the table maps fleet 1 to a planet that is
currently under attack, contradicting the claimed invariant. -/
theorem saved_fleet_invariant_counterexample :
    recallSavedFleetsPass ceEnv [(1, cePlanet)] = [(1, cePlanet)] ∧
    findHostileAt ceEnv.hostileEvents cePlanet ≠ [] := by
  constructor
  · rfl
  · have hval : findHostileAt ceEnv.hostileEvents cePlanet = [ceAttackEvent] := rfl
    rw [hval]
    simp

/-- C7 (amended): a saved-fleet record is created only by a successful,
uniquely verified defensive dispatch with try_recalling_saved_fleet
enabled, and the recall pass keeps a record exactly when either its
origin is currently under hostile attack (the record is deferred, not
destroyed) or the fleet is still flying outbound within
max_return_flight_time and the recall attempt failed; in particular a
record may survive a pass while its origin is under attack. -/
theorem saved_fleet_lifecycle_spec (env : SavedFleetEnv) (table : List (Nat × Planet)) :
    (∀ (fid : Nat) (origin : Planet),
      (fid, origin) ∈ recallSavedFleetsPass env table ↔
        (fid, origin) ∈ table ∧
          (findHostileAt env.hostileEvents origin ≠ [] ∨
            ∃ dep, env.fleetState fid = some (dep, false) ∧
              env.now - dep ≤ env.maxReturnFlightTime ∧
              env.recallSucceeds fid = false)) ∧
    (∀ (tryRecalling : Bool) (matched : List Nat) (origin : Planet),
      recordSavedFleet table tryRecalling matched origin ≠ table →
        tryRecalling = true ∧ ∃ fid, matched = [fid] ∧
          recordSavedFleet table tryRecalling matched origin = table ++ [(fid, origin)]) := by
  constructor
  · intro fid origin
    rw [recallSavedFleetsPass, List.mem_filter]
    have hkeep : keepSavedFleet env fid origin = true ↔
        (findHostileAt env.hostileEvents origin ≠ [] ∨
          ∃ dep, env.fleetState fid = some (dep, false) ∧
            env.now - dep ≤ env.maxReturnFlightTime ∧
            env.recallSucceeds fid = false) := by
      rw [keepSavedFleet]
      by_cases hatt : findHostileAt env.hostileEvents origin = []
      · rw [if_neg (by simp [hatt])]
        cases hfs : env.fleetState fid with
        | none =>
          simp only [keepFlight]
          constructor
          · intro h
            exact Bool.noConfusion h
          · rintro (h | ⟨dep, hdep, _⟩)
            · exact absurd hatt h
            · exact Option.noConfusion hdep
        | some p =>
          obtain ⟨dep, ret⟩ := p
          cases ret with
          | true =>
            constructor
            · intro h
              simp [keepFlight] at h
            · rintro (h | ⟨dep', hdep, _⟩)
              · exact absurd hatt h
              · simp at hdep
          | false =>
            simp only [keepFlight, Bool.false_eq_true, if_false]
            by_cases hlate : env.maxReturnFlightTime < env.now - dep
            · rw [if_pos hlate]
              constructor
              · intro h
                exact Bool.noConfusion h
              · rintro (h | ⟨dep', hdep, hd2, _⟩)
                · exact absurd hatt h
                · simp at hdep
                  omega
            · rw [if_neg hlate]
              by_cases hrec : env.recallSucceeds fid = true
              · rw [if_pos hrec]
                constructor
                · intro h
                  exact Bool.noConfusion h
                · rintro (h | ⟨dep', hdep, _, hrf⟩)
                  · exact absurd hatt h
                  · rw [hrec] at hrf
                    exact Bool.noConfusion hrf
              · rw [if_neg hrec]
                constructor
                · intro _
                  refine Or.inr ⟨dep, rfl, by omega, by simpa using hrec⟩
                · intro _
                  rfl
      · rw [if_pos (by simp [hatt])]
        constructor
        · intro _
          exact Or.inl hatt
        · intro _
          rfl
    rw [hkeep]
  · intro tryRecalling matched origin hne2
    cases matched with
    | nil => exact absurd rfl hne2
    | cons fid rest =>
      cases rest with
      | nil =>
        cases tryRecalling with
        | false => exact absurd rfl hne2
        | true =>
          refine ⟨rfl, fid, rfl, ?_⟩
          rfl
      | cons b l => exact absurd rfl hne2

/-- C7 witness: in the counterexample environment the deferred record
survives the pass by the left (origin under attack) disjunct. -/
theorem saved_fleet_lifecycle_spec_witness :
    (1, cePlanet) ∈ recallSavedFleetsPass ceEnv [(1, cePlanet)] := by
  refine ((saved_fleet_lifecycle_spec ceEnv [(1, cePlanet)]).1 1 cePlanet).mpr
    ⟨by simp, Or.inl ?_⟩
  have hval : findHostileAt ceEnv.hostileEvents cePlanet = [ceAttackEvent] := rfl
  rw [hval]
  simp

/-- Helper: a run of fewer complete cycles than the repeat counter leaves
the intent pending with the counter decremented once per cycle and the
fleet id reset. -/
theorem runCycles_int_lt (cycles : List (Nat × List Nat)) :
    ∀ m : Nat, 1 ≤ m → (∀ c ∈ cycles, c.1 ∉ c.2) → cycles.length < m →
      runCycles ⟨RepeatVal.int m, none, false, none⟩ cycles =
        ⟨RepeatVal.int ((m : Int) - cycles.length), none, false, none⟩ := by
  induction cycles with
  | nil =>
    intro m _ _ _
    simp [runCycles]
  | cons c rest ih =>
    intro m hm hgone hlen
    obtain ⟨fid, mv⟩ := c
    have hnotin : fid ∉ mv := hgone (fid, mv) (by simp)
    have hm2 : 2 ≤ m := by
      simp at hlen
      omega
    have hgonechk : (!mv.contains fid) = true := by
      simp [List.contains, List.elem_iff]
      exact hnotin
    have hstep :
        finishCheck (dispatchSucceeded ⟨RepeatVal.int m, none, false, none⟩ (some fid)) mv =
          ⟨RepeatVal.int ((m : Int) - 1), none, false, none⟩ := by
      rw [dispatchSucceeded, if_neg (by simp)]
      rw [finishCheck]
      simp only [expeditionFleetGone]
      rw [if_neg (by simp)]
      rw [if_pos hgonechk]
      rw [if_neg (by
        simp only [RepeatVal.int.injEq]
        intro h
        omega)]
    rw [runCycles, hstep]
    have hcast : ((m : Int) - 1) = ((m - 1 : Nat) : Int) := by omega
    rw [hcast]
    have hrec := ih (m - 1) (by omega) (fun d hd => hgone d (by simp [hd])) (by
      simp at hlen ⊢
      omega)
    rw [hrec]
    have hlen2 : ((m - 1 : Nat) : Int) - rest.length = (m : Int) - (rest.length + 1) := by
      omega
    simp [hlen2]

/-- Helper: after exactly as many complete cycles as the repeat counter,
the intent is removed with an ExpeditionFinished notification carrying
no error, its counter having reached 0. -/
theorem runCycles_int_exact (cycles : List (Nat × List Nat)) :
    ∀ m : Nat, 1 ≤ m → (∀ c ∈ cycles, c.1 ∉ c.2) → cycles.length = m →
      (runCycles ⟨RepeatVal.int m, none, false, none⟩ cycles).removed = true ∧
      (runCycles ⟨RepeatVal.int m, none, false, none⟩ cycles).finishedError = some none ∧
      (runCycles ⟨RepeatVal.int m, none, false, none⟩ cycles).repeatCount =
        RepeatVal.int 0 := by
  induction cycles with
  | nil =>
    intro m hm _ hlen
    simp at hlen
    omega
  | cons c rest ih =>
    intro m hm hgone hlen
    obtain ⟨fid, mv⟩ := c
    have hnotin : fid ∉ mv := hgone (fid, mv) (by simp)
    have hgonechk : (!mv.contains fid) = true := by
      simp [List.contains, List.elem_iff]
      exact hnotin
    by_cases hm1 : m = 1
    · subst hm1
      have hrest : rest = [] := by
        cases rest with
        | nil => rfl
        | cons x xs => simp at hlen
      subst hrest
      simp only [Nat.cast_one]
      have hstep :
          finishCheck (dispatchSucceeded ⟨RepeatVal.int 1, none, false, none⟩ (some fid)) mv =
            ⟨RepeatVal.int 0, some fid, true, some none⟩ := by
        rw [dispatchSucceeded, if_neg (by simp)]
        rw [finishCheck]
        simp only [expeditionFleetGone]
        rw [if_neg (by simp), if_pos hgonechk, if_pos (by simp)]
        norm_num
      rw [runCycles, hstep]
      exact ⟨rfl, rfl, rfl⟩
    · have hm2 : 2 ≤ m := by omega
      have hstep :
          finishCheck (dispatchSucceeded ⟨RepeatVal.int m, none, false, none⟩ (some fid)) mv =
            ⟨RepeatVal.int ((m : Int) - 1), none, false, none⟩ := by
        rw [dispatchSucceeded, if_neg (by simp)]
        rw [finishCheck]
        simp only [expeditionFleetGone]
        rw [if_neg (by simp), if_pos hgonechk]
        rw [if_neg (by
          simp only [RepeatVal.int.injEq]
          intro h
          omega)]
      rw [runCycles, hstep]
      have hcast : ((m : Int) - 1) = ((m - 1 : Nat) : Int) := by omega
      rw [hcast]
      exact ih (m - 1) (by omega) (fun d hd => hgone d (by simp [hd])) (by
        simp at hlen
        omega)

/-- Helper: an intent whose repeat counter is the string forever is never
decremented and never removed by the repeat rule. -/
theorem runCycles_forever (cycles : List (Nat × List Nat)) :
    ∀ f : Option Nat,
      (runCycles ⟨RepeatVal.forever, f, false, none⟩ cycles).repeatCount =
        RepeatVal.forever ∧
      (runCycles ⟨RepeatVal.forever, f, false, none⟩ cycles).removed = false ∧
      (runCycles ⟨RepeatVal.forever, f, false, none⟩ cycles).finishedError = none := by
  induction cycles with
  | nil =>
    intro f
    exact ⟨rfl, rfl, rfl⟩
  | cons c rest ih =>
    intro f
    obtain ⟨fid, mv⟩ := c
    have hdisp : dispatchSucceeded ⟨RepeatVal.forever, f, false, none⟩ (some fid) =
        ⟨RepeatVal.forever, some fid, false, none⟩ := by
      rw [dispatchSucceeded, if_neg (by simp)]
    rw [runCycles, hdisp, finishCheck]
    rw [if_neg (by simp)]
    by_cases hg : expeditionFleetGone mv (some fid) = true
    · rw [if_pos hg, if_neg (by simp)]
      exact ih none
    · rw [if_neg hg]
      exact ih (some fid)

/-- C8 (amended: the integer repeat counter starts at n at least 1; a
fresh intent with repeat 0 is dispatched once more by the code whenever
the movement list is nonempty, see the counterexample): starting from
repeat n, each successful dispatch cycle decrements the counter by one
and, once the fleet no longer appears in the movement list with the
counter at 0 (after exactly the n-th cycle), the intent is removed with
an ExpeditionFinished notification carrying no error; an intent with
repeat forever is never decremented and never finishes this way. -/
theorem expedition_repeat_spec (n : Nat) (cycles : List (Nat × List Nat))
    (hn : 1 ≤ n) (hgone : ∀ c ∈ cycles, c.1 ∉ c.2) :
    (cycles.length < n →
      runCycles ⟨RepeatVal.int n, none, false, none⟩ cycles =
        ⟨RepeatVal.int ((n : Int) - cycles.length), none, false, none⟩) ∧
    (cycles.length = n →
      (runCycles ⟨RepeatVal.int n, none, false, none⟩ cycles).removed = true ∧
      (runCycles ⟨RepeatVal.int n, none, false, none⟩ cycles).finishedError = some none ∧
      (runCycles ⟨RepeatVal.int n, none, false, none⟩ cycles).repeatCount =
        RepeatVal.int 0) ∧
    ((runCycles ⟨RepeatVal.forever, none, false, none⟩ cycles).repeatCount =
        RepeatVal.forever ∧
      (runCycles ⟨RepeatVal.forever, none, false, none⟩ cycles).removed = false ∧
      (runCycles ⟨RepeatVal.forever, none, false, none⟩ cycles).finishedError = none) :=
  ⟨fun hlt => runCycles_int_lt cycles n hn hgone hlt,
   fun heq => runCycles_int_exact cycles n hn hgone heq,
   runCycles_forever cycles none⟩

/-- C8 witness: with repeat 2, one completed cycle leaves the counter at
1 and the intent pending, and two completed cycles finish the intent
with a no-error notification. -/
theorem expedition_repeat_spec_witness :
    runCycles ⟨RepeatVal.int 2, none, false, none⟩ [(5, [])] =
      ⟨RepeatVal.int 1, none, false, none⟩ ∧
    (runCycles ⟨RepeatVal.int 2, none, false, none⟩ [(5, []), (6, [])]).removed = true := by
  constructor
  · have h := (expedition_repeat_spec 2 [(5, [])] (by norm_num) (by simp)).1 (by simp)
    simpa using h
  · exact ((expedition_repeat_spec 2 [(5, []), (6, [])] (by norm_num) (by simp)).2.1
      (by simp)).1

/-- C8 counterexample: an intent with integer repeat 0 and no dispatched
fleet is not finished by the drain step when the movement list is
nonempty (find_fleets with id None returns the whole nonempty list), and
the subsequent dispatch decrements its counter to -1; so the claim that
an intent with repeat n is finished after exactly n successful dispatch
cycles fails at n = 0. -/
theorem expedition_repeat_zero_counterexample :
    finishCheck ⟨RepeatVal.int 0, none, false, none⟩ [42] =
      ⟨RepeatVal.int 0, none, false, none⟩ ∧
    (dispatchSucceeded ⟨RepeatVal.int 0, none, false, none⟩ (some 7)).repeatCount =
      RepeatVal.int (-1) := by
  exact ⟨rfl, rfl⟩

/-- Helper: the key order is reflexive. -/
theorem keyLE_refl (a : SEvent) : keyLE a a := by
  unfold keyLE
  omega

/-- Helper: the key order is transitive. -/
theorem keyLE_trans {a b c : SEvent} (h1 : keyLE a b) (h2 : keyLE b c) : keyLE a c := by
  unfold keyLE at *
  omega

/-- Helper: the strict comparison of events holds exactly when the key
order fails in the opposite direction. -/
theorem eventLT_eq_true_iff (a b : SEvent) : eventLT a b = true ↔ ¬ keyLE b a := by
  unfold eventLT keyLE
  simp only [Bool.or_eq_true, Bool.and_eq_true, decide_eq_true_eq, beq_iff_eq]
  omega

/-- Helper: a failed strict comparison yields the key order. -/
theorem keyLE_of_not_eventLT {a b : SEvent} (h : ¬ eventLT a b = true) : keyLE b a := by
  rw [eventLT_eq_true_iff] at h
  unfold keyLE at *
  omega

/-- Helper: the strict comparison implies the key order. -/
theorem keyLE_of_eventLT {a b : SEvent} (h : eventLT a b = true) : keyLE a b := by
  rw [eventLT_eq_true_iff] at h
  unfold keyLE at *
  omega

/-- Helper: reading a just-written slot. -/
theorem get?_set_self (l : List SEvent) (i : Nat) (x : SEvent) (h : i < l.length) :
    (l.set i x).get? i = some x := by
  induction l generalizing i with
  | nil => simp at h
  | cons a as ih =>
    cases i with
    | zero => rfl
    | succ j =>
      simp only [List.set, List.get?]
      exact ih j (by simpa using h)

/-- Helper: reading a different slot after a write. -/
theorem get?_set_ne (l : List SEvent) (i j : Nat) (x : SEvent) (h : i ≠ j) :
    (l.set i x).get? j = l.get? j := by
  induction l generalizing i j with
  | nil => simp
  | cons a as ih =>
    cases i with
    | zero =>
      cases j with
      | zero => exact absurd rfl h
      | succ j' => rfl
    | succ i' =>
      cases j with
      | zero => rfl
      | succ j' =>
        simp only [List.set, List.get?]
        exact ih i' j' (by omega)

/-- Helper: nthEvent after a write at the same position. -/
theorem nthEvent_set_self (l : List SEvent) (i : Nat) (x : SEvent) (h : i < l.length) :
    nthEvent (l.set i x) i = x := by
  unfold nthEvent
  rw [get?_set_self l i x h]
  rfl

/-- Helper: nthEvent after a write at a different position. -/
theorem nthEvent_set_ne (l : List SEvent) (i j : Nat) (x : SEvent) (h : i ≠ j) :
    nthEvent (l.set i x) j = nthEvent l j := by
  unfold nthEvent
  rw [get?_set_ne l i j x h]

/-- Helper: a swap has the same length. -/
theorem length_swapEvents (l : List SEvent) (i j : Nat) :
    (swapEvents l i j).length = l.length := by
  simp [swapEvents]

/-- Helper: the swap moves the j-th element to position i. -/
theorem nthEvent_swap_fst (l : List SEvent) (i j : Nat) (hi : i < l.length)
    (hj : j < l.length) : nthEvent (swapEvents l i j) i = nthEvent l j := by
  unfold swapEvents
  by_cases hij : i = j
  · subst hij
    rw [nthEvent_set_self _ _ _ (by simpa using hi)]
  · rw [nthEvent_set_ne _ j i _ (by omega), nthEvent_set_self _ _ _ hi]

/-- Helper: the swap moves the i-th element to position j. -/
theorem nthEvent_swap_snd (l : List SEvent) (i j : Nat) (hj : j < l.length) :
    nthEvent (swapEvents l i j) j = nthEvent l i := by
  unfold swapEvents
  rw [nthEvent_set_self _ _ _ (by simpa using hj)]

/-- Helper: the swap leaves other positions unchanged. -/
theorem nthEvent_swap_other (l : List SEvent) (i j k : Nat) (hki : k ≠ i) (hkj : k ≠ j) :
    nthEvent (swapEvents l i j) k = nthEvent l k := by
  unfold swapEvents
  rw [nthEvent_set_ne _ j k _ (by omega), nthEvent_set_ne _ i k _ (by omega)]

/-- Helper: occurrence counts after a write, in additive form. -/
theorem count_set_add (l : List SEvent) (i : Nat) (x : SEvent) (hi : i < l.length)
    (y : SEvent) :
    (l.set i x).count y + (if nthEvent l i = y then 1 else 0) =
      l.count y + (if x = y then 1 else 0) := by
  induction l generalizing i with
  | nil => simp at hi
  | cons a as ih =>
    cases i with
    | zero =>
      have hn : nthEvent (a :: as) 0 = a := rfl
      rw [hn]
      simp only [List.set, List.count_cons]
      by_cases hx : x = y <;> by_cases ha : a = y <;>
        simp [hx, ha]
    | succ j =>
      have hn : nthEvent (a :: as) (j + 1) = nthEvent as j := rfl
      rw [hn]
      simp only [List.set, List.count_cons]
      have := ih j (by simpa using hi)
      by_cases ha : a = y <;> simp [ha] <;> omega

/-- Helper: a swap preserves occurrence counts. -/
theorem count_swapEvents (l : List SEvent) (i j : Nat) (hi : i < l.length)
    (hj : j < l.length) (y : SEvent) :
    (swapEvents l i j).count y = l.count y := by
  unfold swapEvents
  by_cases hij : i = j
  · subst hij
    have h1 := count_set_add l i (nthEvent l i) hi y
    have h2 := count_set_add (l.set i (nthEvent l i)) i (nthEvent l i)
      (by simpa using hi) y
    rw [nthEvent_set_self _ _ _ hi] at h2
    omega
  · have h1 := count_set_add l i (nthEvent l j) hi y
    have h2 := count_set_add (l.set i (nthEvent l j)) j (nthEvent l i)
      (by simpa using hj) y
    rw [nthEvent_set_ne _ i j _ hij] at h2
    omega

/-- Helper: fuel does not matter for underAux once it covers the index. -/
theorem underAux_congr : ∀ fuel fuel' a i, i ≤ fuel → i ≤ fuel' →
    underAux fuel a i = underAux fuel' a i := by
  intro fuel
  induction fuel with
  | zero =>
    intro fuel' a i hf hf'
    have hi : i = 0 := by omega
    subst hi
    cases fuel' with
    | zero => rfl
    | succ f' =>
      simp only [underAux]
      by_cases ha : a = 0 <;> simp [ha]
  | succ f ih =>
    intro fuel' a i hf hf'
    cases fuel' with
    | zero =>
      have hi : i = 0 := by omega
      subst hi
      simp only [underAux]
      by_cases ha : a = 0 <;> simp [ha]
    | succ f' =>
      simp only [underAux]
      by_cases ha : a = i
      · simp [ha]
      · by_cases hi : i = 0
        · simp [ha, hi]
        · simp only [ha, hi, if_false]
          exact ih f' a ((i - 1) / 2) (by omega) (by omega)

/-- Helper: the defining unfolding of under. -/
theorem under_unfold (a i : Nat) :
    under a i = if a = i then true else if i = 0 then false else under a ((i - 1) / 2) := by
  unfold under
  cases i with
  | zero =>
    simp only [underAux]
    by_cases ha : a = 0 <;> simp [ha]
  | succ j =>
    simp only [underAux]
    by_cases ha : a = j + 1
    · simp [ha]
    · simp only [ha, if_false]
      have : j + 1 ≠ 0 := by omega
      simp only [this, if_false]
      exact underAux_congr j (j / 2) a (j / 2) (by omega) (by omega)

/-- Helper: every index is under the root. -/
theorem under_zero : ∀ i, under 0 i = true := by
  intro i
  induction i using Nat.strong_induction_on with
  | _ i ih =>
    rw [under_unfold]
    by_cases h0 : (0 : Nat) = i
    · simp [h0]
    · have hi : i ≠ 0 := fun h => h0 h.symm
      simp only [h0, hi, if_false]
      exact ih ((i - 1) / 2) (by omega)

/-- Helper: an index is under itself. -/
theorem under_refl (a : Nat) : under a a = true := by
  rw [under_unfold]
  simp

/-- Helper: an ancestor has a smaller or equal index. -/
theorem under_le : ∀ i a, under a i = true → a ≤ i := by
  intro i
  induction i using Nat.strong_induction_on with
  | _ i ih =>
    intro a h
    rw [under_unfold] at h
    by_cases ha : a = i
    · omega
    · by_cases hi : i = 0
      · simp [ha, hi] at h
        omega
      · simp only [ha, hi, if_false] at h
        have := ih ((i - 1) / 2) (by omega) a h
        omega

/-- Helper: strict descendants are under the parent. -/
theorem under_parent {a i : Nat} (h : under a i = true) (hne : a ≠ i) :
    i ≠ 0 ∧ under a ((i - 1) / 2) = true := by
  rw [under_unfold] at h
  by_cases hi : i = 0
  · simp [hne, hi] at h
    subst hi
    exact absurd h hne
  · simp only [hne, hi, if_false] at h
    exact ⟨hi, h⟩

/-- Helper: children of a node under a are under a. -/
theorem under_child {a p c : Nat} (h : under a p = true) (hc : (c - 1) / 2 = p)
    (hc0 : 0 < c) : under a c = true := by
  rw [under_unfold]
  by_cases ha : a = c
  · simp [ha]
  · simp only [ha, if_false]
    have : c ≠ 0 := by omega
    simp only [this, if_false]
    rw [hc]
    exact h

/-- Helper specification of the heapq._siftdown loop (the sift-up of a
possibly too-small item along the parent chain bounded below by start):
if the subtree rooted at start is a heap except possibly at the moved
position, and the children of the moved position already dominate its
parent, then the walk restores the heap property throughout the subtree,
touching only positions under start and preserving length and counts. -/
theorem siftdownAux_spec : ∀ (fuel : Nat) (l : List SEvent) (start pos : Nat),
    pos < l.length → pos ≤ fuel → under start pos = true →
    (∀ c, 0 < c → c < l.length → under start c = true → c ≠ start → c ≠ pos →
       keyLE (nthEvent l ((c - 1) / 2)) (nthEvent l c)) →
    (∀ c, 0 < c → c < l.length → (c - 1) / 2 = pos → pos ≠ start →
       keyLE (nthEvent l ((pos - 1) / 2)) (nthEvent l c)) →
    (siftdownAux fuel l start pos).length = l.length ∧
    (∀ i, under start i = false → nthEvent (siftdownAux fuel l start pos) i = nthEvent l i) ∧
    (∀ y, (siftdownAux fuel l start pos).count y = l.count y) ∧
    (∀ c, 0 < c → c < l.length → under start c = true → c ≠ start →
       keyLE (nthEvent (siftdownAux fuel l start pos) ((c - 1) / 2))
             (nthEvent (siftdownAux fuel l start pos) c)) := by
  intro fuel
  induction fuel with
  | zero =>
    intro l start pos hpos hfuel hunder h1 _
    have hpos0 : pos = 0 := by omega
    subst hpos0
    have hstart0 : start = 0 := by
      have := under_le 0 start hunder
      omega
    subst hstart0
    refine ⟨rfl, fun _ _ => rfl, fun _ => rfl, ?_⟩
    intro c hc0 hcn hcu hcs
    exact h1 c hc0 hcn hcu hcs (by omega)
  | succ f ih =>
    intro l start pos hpos hfuel hunder h1 h2
    simp only [siftdownAux]
    by_cases hlt : start < pos
    · rw [if_pos hlt]
      by_cases hcmp : eventLT (nthEvent l pos) (nthEvent l ((pos - 1) / 2)) = true
      · rw [if_pos hcmp]
        have hposstart : pos ≠ start := by omega
        obtain ⟨hpos0, hup⟩ := under_parent hunder (by omega)
        have hPlt : (pos - 1) / 2 < pos := by omega
        have hPn : (pos - 1) / 2 < l.length := by omega
        have hPstart : start ≤ (pos - 1) / 2 := under_le _ _ hup
        set P := (pos - 1) / 2 with hPdef
        set l2 := swapEvents l pos P with hl2
        have hlen2 : l2.length = l.length := length_swapEvents l pos P
        have hnth_pos : nthEvent l2 pos = nthEvent l P := nthEvent_swap_fst l pos P hpos hPn
        have hnth_P : nthEvent l2 P = nthEvent l pos := nthEvent_swap_snd l pos P hPn
        have hnth_other : ∀ k, k ≠ pos → k ≠ P → nthEvent l2 k = nthEvent l k :=
          fun k hk1 hk2 => nthEvent_swap_other l pos P k hk1 hk2
        have hitem : keyLE (nthEvent l pos) (nthEvent l P) := keyLE_of_eventLT hcmp
        -- new region-heap-except-P hypothesis
        have h1' : ∀ c, 0 < c → c < l2.length → under start c = true → c ≠ start → c ≠ P →
            keyLE (nthEvent l2 ((c - 1) / 2)) (nthEvent l2 c) := by
          intro c hc0 hcn hcu hcs hcP
          rw [hlen2] at hcn
          by_cases hcpos : c = pos
          · subst hcpos
            rw [← hPdef, hnth_P, hnth_pos]
            exact hitem
          · by_cases hpc : (c - 1) / 2 = pos
            · have hc2p : 2 * pos + 1 ≤ c := by omega
              have hcP2 : c ≠ P := by omega
              rw [hpc, hnth_pos, hnth_other c hcpos hcP2]
              exact h2 c hc0 hcn hpc hposstart
            · by_cases hpP : (c - 1) / 2 = P
              · have hcgt : P < c := by omega
                rw [hpP, hnth_P, hnth_other c hcpos hcP]
                refine keyLE_trans hitem ?_
                have := h1 c hc0 hcn hcu hcs hcpos
                rw [hpP] at this
                exact this
              · rw [hnth_other _ hpc hpP, hnth_other c hcpos hcP]
                exact h1 c hc0 hcn hcu hcs hcpos
        -- new children-dominate-grandparent hypothesis
        have h2' : ∀ c, 0 < c → c < l2.length → (c - 1) / 2 = P → P ≠ start →
            keyLE (nthEvent l2 ((P - 1) / 2)) (nthEvent l2 c) := by
          intro c hc0 hcn hcP hPs
          rw [hlen2] at hcn
          have hP0 : 0 < P := by
            rcases Nat.eq_zero_or_pos P with h | h
            · exact absurd (by omega : P = start) hPs
            · exact h
          have hG : (P - 1) / 2 ≠ pos := by omega
          have hG2 : (P - 1) / 2 ≠ P := by omega
          rw [hnth_other _ hG hG2]
          have hgp : keyLE (nthEvent l ((P - 1) / 2)) (nthEvent l P) :=
            h1 P hP0 hPn hup hPs (by omega)
          by_cases hcpos : c = pos
          · subst hcpos
            rw [hnth_pos]
            exact hgp
          · have hcP2 : c ≠ P := by omega
            rw [hnth_other c hcpos hcP2]
            refine keyLE_trans hgp ?_
            have hcu : under start c = true := under_child hup hcP hc0
            have hcs : c ≠ start := by omega
            have := h1 c hc0 hcn hcu hcs hcpos
            rw [hcP] at this
            exact this
        have hrec := ih l2 start P (by omega) (by omega) hup h1' h2'
        obtain ⟨rl, rt, rc, rh⟩ := hrec
        refine ⟨by rw [rl, hlen2], ?_, ?_, ?_⟩
        · intro i hi
          have hipos : i ≠ pos := by
            intro h
            rw [h] at hi
            rw [hunder] at hi
            exact Bool.noConfusion hi
          have hiP : i ≠ P := by
            intro h
            rw [h] at hi
            rw [hup] at hi
            exact Bool.noConfusion hi
          rw [rt i hi, hnth_other i hipos hiP]
        · intro y
          rw [rc y, hl2, count_swapEvents l pos P hpos hPn y]
        · intro c hc0 hcn hcu hcs
          exact rh c hc0 (by omega) hcu hcs
      · rw [if_neg hcmp]
        refine ⟨rfl, fun _ _ => rfl, fun _ => rfl, ?_⟩
        intro c hc0 hcn hcu hcs
        by_cases hcpos : c = pos
        · subst hcpos
          exact keyLE_of_not_eventLT hcmp
        · exact h1 c hc0 hcn hcu hcs hcpos
    · rw [if_neg hlt]
      have hstart : start = pos := by
        have := under_le pos start hunder
        omega
      refine ⟨rfl, fun _ _ => rfl, fun _ => rfl, ?_⟩
      intro c hc0 hcn hcu hcs
      exact h1 c hc0 hcn hcu hcs (by omega)

/-- Helper specification of the heapq._siftup down-walk: starting from a
position whose subtree is a heap except on the edges incident to that
position, the walk promotes the chosen child at each level down to a
leaf, preserving length and counts, touching only the subtree, and
re-establishing the two invariants at the leaf position it returns. -/
theorem siftupAux_spec : ∀ (fuel : Nat) (l : List SEvent) (start pos : Nat),
    pos < l.length → l.length ≤ fuel + pos → under start pos = true →
    (∀ c, 0 < c → c < l.length → under start c = true → c ≠ start → c ≠ pos →
       (c - 1) / 2 ≠ pos → keyLE (nthEvent l ((c - 1) / 2)) (nthEvent l c)) →
    (∀ c, 0 < c → c < l.length → (c - 1) / 2 = pos → pos ≠ start →
       keyLE (nthEvent l ((pos - 1) / 2)) (nthEvent l c)) →
    (siftupAux fuel l pos).1.length = l.length ∧
    (siftupAux fuel l pos).2 < l.length ∧
    under start (siftupAux fuel l pos).2 = true ∧
    l.length ≤ 2 * (siftupAux fuel l pos).2 + 1 ∧
    (∀ i, under start i = false → nthEvent (siftupAux fuel l pos).1 i = nthEvent l i) ∧
    (∀ y, (siftupAux fuel l pos).1.count y = l.count y) ∧
    (∀ c, 0 < c → c < l.length → under start c = true → c ≠ start →
       c ≠ (siftupAux fuel l pos).2 → (c - 1) / 2 ≠ (siftupAux fuel l pos).2 →
       keyLE (nthEvent (siftupAux fuel l pos).1 ((c - 1) / 2))
             (nthEvent (siftupAux fuel l pos).1 c)) ∧
    (∀ c, 0 < c → c < l.length → (c - 1) / 2 = (siftupAux fuel l pos).2 →
       (siftupAux fuel l pos).2 ≠ start →
       keyLE (nthEvent (siftupAux fuel l pos).1 (((siftupAux fuel l pos).2 - 1) / 2))
             (nthEvent (siftupAux fuel l pos).1 c)) := by
  intro fuel
  induction fuel with
  | zero =>
    intro l start pos hpos hfuel _ _ _
    omega
  | succ f ih =>
    intro l start pos hpos hfuel hunder d1 d2
    simp only [siftupAux]
    by_cases hch : 2 * pos + 1 < l.length
    · rw [if_pos hch]
      set cstar :=
        if 2 * pos + 1 + 1 < l.length ∧
            ¬ eventLT (nthEvent l (2 * pos + 1)) (nthEvent l (2 * pos + 1 + 1)) = true then
          2 * pos + 1 + 1
        else 2 * pos + 1 with hcstar
      have hcn : cstar < l.length := by
        rw [hcstar]
        split_ifs with h
        · exact h.1
        · exact hch
      have hcpos : pos < cstar := by
        rw [hcstar]
        split_ifs <;> omega
      have hcparent : (cstar - 1) / 2 = pos := by
        rw [hcstar]
        split_ifs <;> omega
      have hcu : under start cstar = true := under_child hunder hcparent (by omega)
      -- the chosen child is at most the other child, when the other exists
      have hmin : ∀ o, 0 < o → o < l.length → (o - 1) / 2 = pos → o ≠ cstar →
          keyLE (nthEvent l cstar) (nthEvent l o) := by
        intro o ho0 ho hop honc
        have ho2 : o = 2 * pos + 1 ∨ o = 2 * pos + 1 + 1 := by omega
        by_cases hcond : 2 * pos + 1 + 1 < l.length ∧
            ¬ eventLT (nthEvent l (2 * pos + 1)) (nthEvent l (2 * pos + 1 + 1)) = true
        · have hcse : cstar = 2 * pos + 1 + 1 := by rw [hcstar, if_pos hcond]
          have ho3 : o = 2 * pos + 1 := by
            rcases ho2 with h | h
            · exact h
            · rw [hcse] at honc
              exact absurd h honc
          subst ho3
          rw [hcse]
          exact keyLE_of_not_eventLT hcond.2
        · have hcse : cstar = 2 * pos + 1 := by rw [hcstar, if_neg hcond]
          have ho3 : o = 2 * pos + 1 + 1 := by
            rcases ho2 with h | h
            · rw [hcse] at honc
              exact absurd h honc
            · exact h
          subst ho3
          have hr : 2 * pos + 1 + 1 < l.length := ho
          rw [not_and] at hcond
          have hlt2 := hcond hr
          rw [not_not] at hlt2
          rw [hcse]
          exact keyLE_of_eventLT hlt2
      set l2 := swapEvents l pos cstar with hl2
      have hlen2 : l2.length = l.length := length_swapEvents l pos cstar
      have hnth_pos : nthEvent l2 pos = nthEvent l cstar := nthEvent_swap_fst l pos cstar hpos hcn
      have hnth_c : nthEvent l2 cstar = nthEvent l pos := nthEvent_swap_snd l pos cstar hcn
      have hnth_other : ∀ k, k ≠ pos → k ≠ cstar → nthEvent l2 k = nthEvent l k :=
        fun k h1 h2 => nthEvent_swap_other l pos cstar k h1 h2
      have hstartle : start ≤ pos := under_le _ _ hunder
      have d1' : ∀ c, 0 < c → c < l2.length → under start c = true → c ≠ start → c ≠ cstar →
          (c - 1) / 2 ≠ cstar → keyLE (nthEvent l2 ((c - 1) / 2)) (nthEvent l2 c) := by
        intro c hc0 hcln hcund hcs hcc hcpc
        rw [hlen2] at hcln
        by_cases hceqpos : c = pos
        · subst hceqpos
          have hp0 : 0 < c := hc0
          have hparent_ne_pos : (c - 1) / 2 ≠ c := by omega
          have hparent_ne_c : (c - 1) / 2 ≠ cstar := by omega
          rw [hnth_other _ hparent_ne_pos hparent_ne_c, hnth_pos]
          exact d2 cstar (by omega) hcn hcparent (by omega)
        · by_cases hpp : (c - 1) / 2 = pos
          · have hcother : c ≠ cstar := hcc
            rw [hpp, hnth_pos, hnth_other c hceqpos hcother]
            exact hmin c hc0 hcln hpp hcother
          · rw [hnth_other _ hpp hcpc, hnth_other c hceqpos hcc]
            exact d1 c hc0 hcln hcund hcs hceqpos hpp
      have d2' : ∀ c, 0 < c → c < l2.length → (c - 1) / 2 = cstar → cstar ≠ start →
          keyLE (nthEvent l2 ((cstar - 1) / 2)) (nthEvent l2 c) := by
        intro c hc0 hcln hcpar _
        rw [hlen2] at hcln
        have hcgt : cstar < c := by omega
        have hcnepos : c ≠ pos := by omega
        have hcnec : c ≠ cstar := by omega
        rw [hcparent, hnth_pos, hnth_other c hcnepos hcnec]
        have hcund : under start c = true := under_child hcu hcpar hc0
        have hcs : c ≠ start := by omega
        have := d1 c hc0 hcln hcund hcs hcnepos (by omega)
        rw [hcpar] at this
        exact this
      have hrec := ih l2 start cstar (by omega) (by omega) hcu d1' d2'
      obtain ⟨r1, r2, r3, r4, r5, r6, r7, r8⟩ := hrec
      rw [hlen2] at r1 r2 r4 r7 r8
      refine ⟨r1, r2, r3, r4, ?_, ?_, r7, r8⟩
      · intro i hi
        have hipos : i ≠ pos := by
          intro h
          rw [h, hunder] at hi
          exact Bool.noConfusion hi
        have hic : i ≠ cstar := by
          intro h
          rw [h, hcu] at hi
          exact Bool.noConfusion hi
        rw [r5 i hi, hnth_other i hipos hic]
      · intro y
        rw [r6 y, hl2, count_swapEvents l pos cstar hpos hcn y]
    · rw [if_neg hch]
      refine ⟨rfl, hpos, hunder, by omega, fun _ _ => rfl, fun _ => rfl, ?_, ?_⟩
      · intro c hc0 hcln hcund hcs hcc hcpc
        exact d1 c hc0 hcln hcund hcs hcc hcpc
      · intro c hc0 hcln hcpar hps
        exact d2 c hc0 hcln hcpar hps

/-- Helper specification of heapq._siftup: if the subtree rooted at pos
is a heap except on the edges incident to pos, the call makes it a heap,
preserving length and counts and touching only the subtree. -/
theorem pysiftup_spec (l : List SEvent) (pos : Nat) (hpos : pos < l.length)
    (d : ∀ c, 0 < c → c < l.length → under pos c = true → c ≠ pos → (c - 1) / 2 ≠ pos →
       keyLE (nthEvent l ((c - 1) / 2)) (nthEvent l c)) :
    (pysiftup l pos).length = l.length ∧
    (∀ i, under pos i = false → nthEvent (pysiftup l pos) i = nthEvent l i) ∧
    (∀ y, (pysiftup l pos).count y = l.count y) ∧
    (∀ c, 0 < c → c < l.length → under pos c = true → c ≠ pos →
       keyLE (nthEvent (pysiftup l pos) ((c - 1) / 2)) (nthEvent (pysiftup l pos) c)) := by
  have hup := siftupAux_spec l.length l pos pos hpos (by omega) (under_refl pos)
    (fun c hc0 hcn hcu _ hcp hparp => d c hc0 hcn hcu hcp hparp)
    (fun c _ _ _ habs => absurd rfl habs)
  obtain ⟨r1, r2, r3, r4, r5, r6, r7, r8⟩ := hup
  have hpy : pysiftup l pos =
      siftdownAux (siftupAux l.length l pos).2 (siftupAux l.length l pos).1 pos
        (siftupAux l.length l pos).2 := rfl
  have hsd := siftdownAux_spec (siftupAux l.length l pos).2 (siftupAux l.length l pos).1 pos
    (siftupAux l.length l pos).2 (by omega) (le_refl _) r3
    (by
      intro c hc0 hcn hcu hcs hcp
      rw [r1] at hcn
      exact r7 c hc0 hcn hcu hcs hcp (by omega))
    (by
      intro c hc0 hcn hcpar _
      rw [r1] at hcn
      omega)
  obtain ⟨s1, s2, s3, s4⟩ := hsd
  rw [← hpy] at s1 s2 s3 s4
  refine ⟨by rw [s1, r1], ?_, ?_, ?_⟩
  · intro i hi
    rw [s2 i hi, r5 i hi]
  · intro y
    rw [s3 y, r6 y]
  · intro c hc0 hcn hcu hcs
    exact s4 c hc0 (by rw [r1]; exact hcn) hcu hcs

/-- Helper specification of the heapify loop: if every edge whose parent
index is at least k already satisfies the heap order, processing
positions k - 1 down to 0 yields a heap, preserving length and counts. -/
theorem heapifyLoop_spec : ∀ (k : Nat) (l : List SEvent), k ≤ l.length →
    (∀ c, 0 < c → c < l.length → k ≤ (c - 1) / 2 →
       keyLE (nthEvent l ((c - 1) / 2)) (nthEvent l c)) →
    IsHeap (heapifyLoop l k) ∧ (heapifyLoop l k).length = l.length ∧
      (∀ y, (heapifyLoop l k).count y = l.count y) := by
  intro k
  induction k with
  | zero =>
    intro l _ inv
    refine ⟨?_, rfl, fun _ => rfl⟩
    intro c hc0 hcn
    exact inv c hc0 hcn (Nat.zero_le _)
  | succ k ih =>
    intro l hk inv
    have hkn : k < l.length := by omega
    have hps := pysiftup_spec l k hkn (by
      intro c hc0 hcn hcu hck hcpar
      obtain ⟨_, hupar⟩ := under_parent hcu (fun h => hck h.symm)
      have hkle : k ≤ (c - 1) / 2 := under_le _ _ hupar
      have : k + 1 ≤ (c - 1) / 2 := by
        rcases Nat.eq_or_lt_of_le hkle with h | h
        · exact absurd h.symm hcpar
        · omega
      exact inv c hc0 hcn (by omega))
    obtain ⟨p1, p2, p3, p4⟩ := hps
    have hstep : heapifyLoop l (k + 1) = heapifyLoop (pysiftup l k) k := rfl
    rw [hstep]
    have hinv2 : ∀ c, 0 < c → c < (pysiftup l k).length → k ≤ (c - 1) / 2 →
        keyLE (nthEvent (pysiftup l k) ((c - 1) / 2)) (nthEvent (pysiftup l k) c) := by
      intro c hc0 hcn hkle
      rw [p1] at hcn
      by_cases hu : under k c = true
      · have hck : c ≠ k := by
          intro h
          subst h
          omega
        exact p4 c hc0 hcn hu hck
      · have hu' : under k c = false := by
          rw [Bool.not_eq_true] at hu
          exact hu
        have hupar : under k ((c - 1) / 2) = false := by
          by_contra hcon
          rw [Bool.not_eq_false] at hcon
          rw [under_child hcon rfl hc0] at hu'
          exact Bool.noConfusion hu'
        rw [p2 c hu', p2 _ hupar]
        have hne : (c - 1) / 2 ≠ k := by
          intro h
          rw [h, under_refl] at hupar
          exact Bool.noConfusion hupar
        exact inv c hc0 hcn (by omega)
    have hr := ih (pysiftup l k) (by omega) hinv2
    obtain ⟨q1, q2, q3⟩ := hr
    refine ⟨q1, by rw [q2, p1], ?_⟩
    intro y
    rw [q3 y, p3 y]

/-- Helper: heapq.heapify turns an arbitrary list into a heap, preserving
length and counts. -/
theorem heapify_spec (l : List SEvent) :
    IsHeap (heapify l) ∧ (heapify l).length = l.length ∧
      (∀ y, (heapify l).count y = l.count y) := by
  refine heapifyLoop_spec (l.length / 2) l (by omega) ?_
  intro c hc0 hcn hdiv
  omega

/-- Helper: reading within the first summand of an append. -/
theorem nthEvent_append_lt (l l' : List SEvent) (c : Nat) (h : c < l.length) :
    nthEvent (l ++ l') c = nthEvent l c := by
  unfold nthEvent
  rw [List.get?_eq_getElem?, List.get?_eq_getElem?, List.getElem?_append_left h]

/-- Helper specification of heapq.heappush: pushing on a heap yields a
heap with the new element added. -/
theorem heappush_spec (l : List SEvent) (e : SEvent) (h : IsHeap l) :
    IsHeap (heappush l e) ∧ (heappush l e).length = l.length + 1 ∧
    (∀ y, (heappush l e).count y = l.count y + (if e = y then 1 else 0)) := by
  have hlen : (l ++ [e]).length = l.length + 1 := by simp
  have hsd := siftdownAux_spec l.length (l ++ [e]) 0 l.length (by omega) (le_refl _)
    (under_zero _)
    (by
      intro c hc0 hcn hcu _ hcp
      rw [hlen] at hcn
      have hcl : c < l.length := by omega
      have hpl : (c - 1) / 2 < l.length := by omega
      rw [nthEvent_append_lt _ _ _ hcl, nthEvent_append_lt _ _ _ hpl]
      exact h c hc0 hcl)
    (by
      intro c hc0 hcn hcpar _
      rw [hlen] at hcn
      omega)
  obtain ⟨s1, s2, s3, s4⟩ := hsd
  have hpush : heappush l e = siftdownAux l.length (l ++ [e]) 0 l.length := rfl
  rw [hpush]
  refine ⟨?_, by rw [s1, hlen], ?_⟩
  · intro c hc0 hcn
    rw [s1, hlen] at hcn
    exact s4 c hc0 (by rw [hlen]; exact hcn) (under_zero c) (by omega)
  · intro y
    rw [s3 y, List.count_append]
    have : List.count y [e] = if e = y then 1 else 0 := by
      simp [List.count_cons, List.count_nil, beq_iff_eq]
    rw [this]

/-- Helper: in a heap the root is minimal in the key order. -/
theorem root_min (l : List SEvent) (h : IsHeap l) :
    ∀ i, i < l.length → keyLE (nthEvent l 0) (nthEvent l i) := by
  intro i
  induction i using Nat.strong_induction_on with
  | _ i ih =>
    intro hi
    rcases Nat.eq_zero_or_pos i with h0 | h0
    · subst h0
      exact keyLE_refl _
    · have hp := ih ((i - 1) / 2) (by omega) (by omega)
      exact keyLE_trans hp (h i h0 hi)

/-- Helper: reading dropLast within bounds. -/
theorem get?_dropLast (l : List SEvent) (c : Nat) (h : c + 1 < l.length) :
    l.dropLast.get? c = l.get? c := by
  induction l generalizing c with
  | nil => simp at h
  | cons a as ih =>
    cases as with
    | nil => simp at h
    | cons b bs =>
      cases c with
      | zero => rfl
      | succ c' =>
        have : (a :: b :: bs).dropLast = a :: (b :: bs).dropLast := rfl
        rw [this]
        simp only [List.get?]
        exact ih c' (by simpa using h)

/-- Helper: nthEvent of dropLast within bounds. -/
theorem nthEvent_dropLast (l : List SEvent) (c : Nat) (h : c + 1 < l.length) :
    nthEvent l.dropLast c = nthEvent l c := by
  unfold nthEvent
  rw [get?_dropLast l c h]

/-- Helper: a nonempty list is its dropLast followed by its last element
(with any default for getLastD). -/
theorem dropLast_append_getLastD : ∀ (l : List SEvent) (d : SEvent), l ≠ [] →
    l.dropLast ++ [l.getLastD d] = l := by
  intro l
  induction l with
  | nil =>
    intro d h
    exact absurd rfl h
  | cons a as ih =>
    intro d _
    cases as with
    | nil => rfl
    | cons b bs =>
      have h1 : (a :: b :: bs).dropLast = a :: (b :: bs).dropLast := rfl
      have h2 : (a :: b :: bs).getLastD d = (b :: bs).getLastD a := rfl
      rw [h1, h2]
      have := ih a (by simp)
      simp only [List.cons_append]
      rw [this]

/-- Helper specification of heapq.heappop on a heap: it returns the root
(the key-minimal element), and the remaining list is a heap containing
the rest of the elements. -/
theorem heappop_spec (l : List SEvent) (e : SEvent) (rest : List SEvent) (h : IsHeap l)
    (hp : heappop l = some (e, rest)) :
    e = nthEvent l 0 ∧ rest.length + 1 = l.length ∧ IsHeap rest ∧
    (∀ y, rest.count y + (if e = y then 1 else 0) = l.count y) ∧ e ∈ l := by
  cases l with
  | nil => exact Option.noConfusion hp
  | cons x as =>
    cases as with
    | nil =>
      have hval : heappop [x] = some (x, []) := rfl
      rw [hval] at hp
      have hpair := Option.some.inj hp
      have he : x = e := congrArg Prod.fst hpair
      have hr : ([] : List SEvent) = rest := congrArg Prod.snd hpair
      subst he
      subst hr
      refine ⟨rfl, rfl, ?_, ?_, by simp⟩
      · intro c hc0 hcn
        simp at hcn
      · intro y
        by_cases hxy : x = y <;> simp [List.count_cons, List.count_nil, hxy, beq_iff_eq]
    | cons y0 rest0 =>
      have hval : heappop (x :: y0 :: rest0) =
          some (x, pysiftup ((x :: y0 :: rest0).dropLast.set 0
            ((x :: y0 :: rest0).getLastD { id := 0, time := 0, priority := 0, data := 0 })) 0) :=
        rfl
      rw [hval] at hp
      have hpair := Option.some.inj hp
      have he : x = e := congrArg Prod.fst hpair
      have hr : pysiftup ((x :: y0 :: rest0).dropLast.set 0
          ((x :: y0 :: rest0).getLastD { id := 0, time := 0, priority := 0, data := 0 })) 0 =
          rest := congrArg Prod.snd hpair
      subst he
      set full := x :: y0 :: rest0 with hfull
      have hne : full ≠ [] := by simp [hfull]
      have hnlen : 2 ≤ full.length := by simp [hfull]
      set lastelt := full.getLastD { id := 0, time := 0, priority := 0, data := 0 } with hlast
      set m := full.dropLast.set 0 lastelt with hm
      have hmlen : m.length = full.length - 1 := by
        simp [hm, List.length_set, List.length_dropLast]
      have hdl : 0 < full.dropLast.length := by
        simp [List.length_dropLast, hfull]
      have hmn : ∀ k, 0 < k → k < m.length → nthEvent m k = nthEvent full k := by
        intro k hk0 hkm
        rw [hm, nthEvent_set_ne _ 0 k _ (by omega)]
        refine nthEvent_dropLast full k ?_
        rw [hmlen] at hkm
        omega
      have hps := pysiftup_spec m 0 (by omega) (by
        intro c hc0 hcn _ _ hcpar
        have hpar0 : 0 < (c - 1) / 2 := by omega
        rw [hmn c hc0 hcn, hmn _ hpar0 (by omega)]
        refine h c hc0 ?_
        rw [hmlen] at hcn
        omega)
      obtain ⟨p1, p2, p3, p4⟩ := hps
      rw [← hr]
      refine ⟨rfl, by omega, ?_, ?_, by simp [hfull]⟩
      · intro c hc0 hcn
        rw [p1] at hcn
        exact p4 c hc0 hcn (under_zero c) (by omega)
      · intro y
        have hcm := p3 y
        have hsplit := dropLast_append_getLastD full
          { id := 0, time := 0, priority := 0, data := 0 } hne
        have hcfull : full.count y = full.dropLast.count y + (if lastelt = y then 1 else 0) := by
          conv_lhs => rw [← hsplit]
          rw [List.count_append]
          congr 1
          simp [List.count_cons, List.count_nil, beq_iff_eq, hlast]
        have hcset := count_set_add full.dropLast 0 lastelt hdl y
        have hnth0 : nthEvent full.dropLast 0 = x := by
          rw [nthEvent_dropLast full 0 (by omega)]
          rfl
        rw [hnth0] at hcset
        rw [hcm]
        rw [← hm] at hcset
        omega

/-- Helper: membership via a positive occurrence count. -/
theorem mem_iff_count_pos (l : List SEvent) (x : SEvent) : x ∈ l ↔ 0 < l.count x := by
  induction l with
  | nil => simp
  | cons a as ih =>
    by_cases hax : a = x
    · subst hax
      simp [List.count_cons]
    · simp only [List.mem_cons, List.count_cons, beq_iff_eq, hax, if_false]
      constructor
      · rintro (h | h)
        · exact absurd h.symm hax
        · simpa using ih.mp h
      · intro h
        right
        exact ih.mpr (by simpa using h)

/-- Helper: every valid index yields a member. -/
theorem nthEvent_mem (l : List SEvent) (i : Nat) (h : i < l.length) : nthEvent l i ∈ l := by
  induction l generalizing i with
  | nil => simp at h
  | cons a as ih =>
    cases i with
    | zero => simp [nthEvent]
    | succ j =>
      have : nthEvent (a :: as) (j + 1) = nthEvent as j := rfl
      rw [this]
      exact List.mem_cons_of_mem a (ih j (by simpa using h))

/-- Helper: every member sits at a valid index. -/
theorem mem_nthEvent (l : List SEvent) (x : SEvent) (h : x ∈ l) :
    ∃ i, i < l.length ∧ nthEvent l i = x := by
  induction l with
  | nil => simp at h
  | cons a as ih =>
    rcases List.mem_cons.mp h with h1 | h1
    · exact ⟨0, by simp, h1.symm⟩
    · obtain ⟨i, hi, hni⟩ := ih h1
      exact ⟨i + 1, by simpa using hi, hni⟩

/-- Helper specification of Scheduler._pop: on a heap state a successful
pop returns an overdue, key-minimal entry and removes exactly it. -/
theorem spop_spec (st : SchedState) (now : Int) (e : SEvent) (st' : SchedState)
    (hheap : IsHeap st.queue) (hp : spop st now = (some e, st')) :
    e.time ≤ now ∧ e ∈ st.queue ∧ (∀ x ∈ st.queue, keyLE e x) ∧
    IsHeap st'.queue ∧ st'.nextId = st.nextId ∧
    (∀ y, st'.queue.count y + (if e = y then 1 else 0) = st.queue.count y) := by
  cases hq : st.queue with
  | nil =>
    rw [spop, hq] at hp
    exact Option.noConfusion (congrArg Prod.fst hp)
  | cons a as =>
    rw [spop, hq] at hp
    dsimp only at hp
    by_cases htime : a.time ≤ now
    · rw [if_pos htime] at hp
      obtain ⟨p, rest', hpp⟩ : ∃ p rest', heappop (a :: as) = some (p, rest') := by
        cases as with
        | nil => exact ⟨a, [], rfl⟩
        | cons b bs => exact ⟨_, _, rfl⟩
      rw [hpp] at hp
      dsimp only at hp
      have hae : a = e := Option.some.inj (congrArg Prod.fst hp)
      have hst' : st' = { st with queue := rest' } := (congrArg Prod.snd hp).symm
      rw [hq] at hheap
      have hps := heappop_spec (a :: as) p rest' hheap hpp
      obtain ⟨hp0, hplen, hpheap, hpcount, hpmem⟩ := hps
      have hroot : nthEvent (a :: as) 0 = a := rfl
      subst hae
      refine ⟨htime, by simp, ?_, ?_, ?_, ?_⟩
      · intro x hx
        obtain ⟨i, hi, hni⟩ := mem_nthEvent _ _ hx
        have := root_min (a :: as) hheap i hi
        rw [hroot, hni] at this
        exact this
      · rw [hst']
        exact hpheap
      · rw [hst']
      · intro y
        rw [hst']
        have := hpcount y
        have hpa : p = a := by rw [hp0, hroot]
        rw [hpa] at this
        exact this
    · rw [if_neg htime] at hp
      exact Option.noConfusion (congrArg Prod.fst hp)

/-- Helper specification of a single scheduler operation on a heap state:
the queue stays a heap, the id counter never decreases (and increments
exactly on a push, which adds the event carrying the fresh id), every
surviving entry was already queued unless it is the freshly pushed one,
and anything popped was queued. -/
theorem schedStep_spec (st : SchedState) (op : SchedOp) (hh : IsHeap st.queue) :
    IsHeap (schedStep st op).1.queue ∧
    st.nextId ≤ (schedStep st op).1.nextId ∧
    (∀ x, x ∈ (schedStep st op).1.queue → x ∈ st.queue ∨
       (∃ t p d, op = SchedOp.push t p d ∧
         x = { id := st.nextId, time := t, priority := p, data := d } ∧
         (schedStep st op).1.nextId = st.nextId + 1)) ∧
    (∀ e, (schedStep st op).2 = some e → e ∈ st.queue) := by
  cases op with
  | push t p d =>
    have hps := heappush_spec st.queue { id := st.nextId, time := t, priority := p, data := d } hh
    obtain ⟨h1, h2, h3⟩ := hps
    refine ⟨h1, by simp [schedStep, spushabs], ?_, ?_⟩
    · intro x hx
      have hqe : (schedStep st (SchedOp.push t p d)).1.queue =
          heappush st.queue { id := st.nextId, time := t, priority := p, data := d } := rfl
      rw [hqe] at hx
      have hcx := (mem_iff_count_pos _ x).mp hx
      rw [h3 x] at hcx
      by_cases hxe : ({ id := st.nextId, time := t, priority := p, data := d } : SEvent) = x
      · exact Or.inr ⟨t, p, d, rfl, hxe.symm, rfl⟩
      · rw [if_neg hxe] at hcx
        exact Or.inl ((mem_iff_count_pos _ x).mpr (by omega))
    · intro e he
      exact Option.noConfusion he
  | cancel i =>
    have hhs := heapify_spec (st.queue.filter (fun e => e.id ≠ i))
    obtain ⟨h1, h2, h3⟩ := hhs
    refine ⟨h1, le_refl _, ?_, ?_⟩
    · intro x hx
      have hqe : (schedStep st (SchedOp.cancel i)).1.queue =
          heapify (st.queue.filter (fun e => e.id ≠ i)) := rfl
      rw [hqe] at hx
      have hcx := (mem_iff_count_pos _ x).mp hx
      rw [h3 x] at hcx
      have hxf : x ∈ st.queue.filter (fun e => e.id ≠ i) :=
        (mem_iff_count_pos _ x).mpr hcx
      exact Or.inl (List.mem_of_mem_filter hxf)
    · intro e he
      exact Option.noConfusion he
  | pop now =>
    have hstep : schedStep st (SchedOp.pop now) = ((spop st now).2, (spop st now).1) := rfl
    rw [hstep]
    dsimp only
    cases hsp : (spop st now).1 with
    | none =>
      have hst : (spop st now).2 = st := by
        rw [spop]
        cases hq : st.queue with
        | nil => rfl
        | cons a as =>
          dsimp only
          by_cases ht : a.time ≤ now
          · rw [if_pos ht]
            exfalso
            rw [spop, hq] at hsp
            dsimp only at hsp
            rw [if_pos ht] at hsp
            cases has : heappop (a :: as) with
            | none =>
              cases as with
              | nil => exact Option.noConfusion has
              | cons b bs => exact Option.noConfusion has
            | some pr =>
              obtain ⟨pp, rr⟩ := pr
              rw [has] at hsp
              exact Option.noConfusion hsp
          · rw [if_neg ht]
      rw [hst]
      exact ⟨hh, le_refl _, fun x hx => Or.inl hx, fun e he => Option.noConfusion he⟩
    | some e =>
      have hs := spop_spec st now e (spop st now).2 hh (by
        rw [← hsp])
      obtain ⟨s1, s2, s3, s4, s5, s6⟩ := hs
      refine ⟨s4, by rw [s5], ?_, ?_⟩
      · intro x hx
        have hcx := (mem_iff_count_pos _ x).mp hx
        have := s6 x
        refine Or.inl ((mem_iff_count_pos _ x).mpr (by omega))
      · intro e' he'
        have : e = e' := Option.some.inj he'
        rw [← this]
        exact s2

/-- Helper: run-level invariant of the scheduler: from a well-formed
state (heap queue, every id below the counter), the queue stays a heap,
ids stay below the monotone counter, and an id that is absent and below
the counter never reappears in the queue nor in the popped log. -/
theorem runSched_spec (ops : List SchedOp) : ∀ st : SchedState,
    IsHeap st.queue → (∀ e ∈ st.queue, e.id < st.nextId) →
    IsHeap (runSched st ops).1.queue ∧
    (∀ e ∈ (runSched st ops).1.queue, e.id < (runSched st ops).1.nextId) ∧
    st.nextId ≤ (runSched st ops).1.nextId ∧
    (∀ h, h < st.nextId → (∀ e ∈ st.queue, e.id ≠ h) →
       (∀ e ∈ (runSched st ops).1.queue, e.id ≠ h) ∧
       (∀ e ∈ (runSched st ops).2, e.id ≠ h)) := by
  induction ops with
  | nil =>
    intro st hh hid
    exact ⟨hh, hid, le_refl _, fun h _ hid2 => ⟨hid2, by simp [runSched]⟩⟩
  | cons op rest ih =>
    intro st hh hid
    have hss := schedStep_spec st op hh
    obtain ⟨s1, s2, s3, s4⟩ := hss
    have hid1 : ∀ e ∈ (schedStep st op).1.queue, e.id < (schedStep st op).1.nextId := by
      intro e he
      rcases s3 e he with h | ⟨t, p, d, _, hxe, hnid⟩
      · have := hid e h
        omega
      · rw [hxe, hnid]
        exact Nat.lt_succ_self st.nextId
    have hr := ih (schedStep st op).1 s1 hid1
    obtain ⟨r1, r2, r3, r4⟩ := hr
    have hrw1 : (runSched st (op :: rest)).1 = (runSched (schedStep st op).1 rest).1 := rfl
    have hrw2 : (runSched st (op :: rest)).2 =
        (match (schedStep st op).2 with
         | some e => [e]
         | none => []) ++ (runSched (schedStep st op).1 rest).2 := rfl
    refine ⟨by rw [hrw1]; exact r1, by rw [hrw1]; exact r2, by rw [hrw1]; omega, ?_⟩
    intro h hlt hne
    have hne1 : ∀ e ∈ (schedStep st op).1.queue, e.id ≠ h := by
      intro e he
      rcases s3 e he with h2 | ⟨t, p, d, _, hxe, _⟩
      · exact hne e h2
      · rw [hxe]
        show st.nextId ≠ h
        omega
    have hlt1 : h < (schedStep st op).1.nextId := by omega
    have htail := r4 h hlt1 hne1
    refine ⟨by rw [hrw1]; exact htail.1, ?_⟩
    rw [hrw2]
    intro e he
    rcases List.mem_append.mp he with hhd | htl
    · cases hsp : (schedStep st op).2 with
      | none =>
        rw [hsp] at hhd
        simp at hhd
      | some e0 =>
        rw [hsp] at hhd
        simp at hhd
        rw [hhd]
        exact hne e0 (s4 e0 hsp)
    · exact htail.2 e htl

/-- C3 counterexample: three violations of the claim, each at a concrete
operation sequence of the embedded bot/eventloop.py scheduler. First,
ties are not broken by insertion order: pushes with keys (1,0), (1,0),
(0,0) receive ids 0, 1, 2 and pop as 2, 1, 0, although priority then
insertion order requires 2, 0, 1. Second, pops are not globally
non-decreasing in (time, priority): popping (5,1), then pushing (5,0)
and popping again yields the decreasing key sequence (5,1), (5,0).
Third, cancelling an absent handle is not a no-op: heapify permutes two
equal-key entries, changing the subsequent pop order from ids 0, 1 to
ids 1, 0. -/
theorem scheduler_tiebreak_counterexample :
    (runSched SchedState.initState
      [SchedOp.push 1 0 0, SchedOp.push 1 0 0, SchedOp.push 0 0 0,
       SchedOp.pop 1, SchedOp.pop 1, SchedOp.pop 1]).2.map SEvent.id = [2, 1, 0] ∧
    ((runSched SchedState.initState
      [SchedOp.push 5 1 0, SchedOp.pop 5, SchedOp.push 5 0 0, SchedOp.pop 5]).2.map
        (fun e => (e.time, e.priority)) = [(5, 1), (5, 0)]) ∧
    ((runSched SchedState.initState
      [SchedOp.push 0 0 0, SchedOp.push 0 0 1, SchedOp.cancel 99,
       SchedOp.pop 0, SchedOp.pop 0]).2.map SEvent.id = [1, 0]) ∧
    ((runSched SchedState.initState
      [SchedOp.push 0 0 0, SchedOp.push 0 0 1,
       SchedOp.pop 0, SchedOp.pop 0]).2.map SEvent.id = [0, 1]) := by
  decide

/-- C3 (amended): for every sequence of pushes, cancels and pops of the
scheduler, the queue is always a binary heap and pop returns an entry
only when its time has elapsed, and that entry is minimal in the (time,
priority) order among the queued entries (hence ties at equal times are
broken by priority, and pops without intervening smaller-keyed pushes
are non-decreasing); a cancelled handle is removed and, being below the
id counter, never reappears in the queue nor among later popped entries;
cancelling an absent handle leaves the multiset of queued entries
unchanged (though it may permute entries with equal keys, and insertion
order among equal (time, priority) keys is not respected). -/
theorem scheduler_amended_spec (ops : List SchedOp) :
    IsHeap (stateAfter ops).queue ∧
    (∀ (now : Int) (e : SEvent) (st' : SchedState),
       spop (stateAfter ops) now = (some e, st') →
       e.time ≤ now ∧ e ∈ (stateAfter ops).queue ∧
       ∀ x ∈ (stateAfter ops).queue, keyLE e x) ∧
    (∀ (h : Nat) (more : List SchedOp), h < (stateAfter ops).nextId →
       (∀ e ∈ (runSched (scancel (stateAfter ops) h) more).1.queue, e.id ≠ h) ∧
       (∀ e ∈ (runSched (scancel (stateAfter ops) h) more).2, e.id ≠ h)) ∧
    (∀ h : Nat, (∀ e ∈ (stateAfter ops).queue, e.id ≠ h) →
       ∀ y, (scancel (stateAfter ops) h).queue.count y = (stateAfter ops).queue.count y) := by
  have hinit : IsHeap (SchedState.initState).queue := by
    intro c hc0 hcn
    simp [SchedState.initState] at hcn
  have hids : ∀ e ∈ (SchedState.initState).queue, e.id < (SchedState.initState).nextId := by
    intro e he
    simp [SchedState.initState] at he
  have hrun := runSched_spec ops SchedState.initState hinit hids
  obtain ⟨w1, w2, _, _⟩ := hrun
  refine ⟨w1, ?_, ?_, ?_⟩
  · intro now e st' hp
    have := spop_spec (stateAfter ops) now e st' w1 hp
    exact ⟨this.1, this.2.1, this.2.2.1⟩
  · intro h more hlt
    have hhs := heapify_spec ((stateAfter ops).queue.filter (fun e => e.id ≠ h))
    obtain ⟨c1, c2, c3⟩ := hhs
    have hch : IsHeap (scancel (stateAfter ops) h).queue := c1
    have hcm : ∀ x, x ∈ (scancel (stateAfter ops) h).queue →
        x ∈ (stateAfter ops).queue.filter (fun e => e.id ≠ h) := by
      intro x hx
      have hqe : (scancel (stateAfter ops) h).queue =
          heapify ((stateAfter ops).queue.filter (fun e => e.id ≠ h)) := rfl
      rw [hqe] at hx
      have hcx := (mem_iff_count_pos _ x).mp hx
      rw [c3 x] at hcx
      exact (mem_iff_count_pos _ x).mpr hcx
    have hcid : ∀ e ∈ (scancel (stateAfter ops) h).queue,
        e.id < (scancel (stateAfter ops) h).nextId := by
      intro e he
      exact w2 e (List.mem_of_mem_filter (hcm e he))
    have hcne : ∀ e ∈ (scancel (stateAfter ops) h).queue, e.id ≠ h := by
      intro e he
      have := List.of_mem_filter (hcm e he)
      simpa using this
    have hclt : h < (scancel (stateAfter ops) h).nextId := hlt
    have := runSched_spec more (scancel (stateAfter ops) h) hch hcid
    exact this.2.2.2 h hclt hcne
  · intro h hne y
    have hqe2 : (scancel (stateAfter ops) h).queue =
        heapify ((stateAfter ops).queue.filter (fun e => e.id ≠ h)) := rfl
    have hfe : (stateAfter ops).queue.filter (fun e => e.id ≠ h) = (stateAfter ops).queue := by
      rw [List.filter_eq_self]
      intro a ha
      simpa using hne a ha
    have := (heapify_spec ((stateAfter ops).queue.filter (fun e => e.id ≠ h))).2.2 y
    rw [hfe] at this
    rw [hqe2, hfe]
    exact this

/-- C3 witness: after a single push of an event at time 3, a pop at time
5 returns that event, overdue and minimal; and cancelling the absent
handle 7 preserves the queue's single entry. -/
theorem scheduler_amended_spec_witness :
    ((3 : Int) ≤ 5 ∧
      ({ id := 0, time := 3, priority := 0, data := 0 } : SEvent) ∈
        (stateAfter [SchedOp.push 3 0 0]).queue ∧
      ∀ x ∈ (stateAfter [SchedOp.push 3 0 0]).queue,
        keyLE { id := 0, time := 3, priority := 0, data := 0 } x) ∧
    (scancel (stateAfter [SchedOp.push 3 0 0]) 7).queue.count
        { id := 0, time := 3, priority := 0, data := 0 } =
      (stateAfter [SchedOp.push 3 0 0]).queue.count
        { id := 0, time := 3, priority := 0, data := 0 } := by
  constructor
  · exact (scheduler_amended_spec [SchedOp.push 3 0 0]).2.1 5
      { id := 0, time := 3, priority := 0, data := 0 }
      { queue := [], nextId := 1 } (by decide)
  · exact (scheduler_amended_spec [SchedOp.push 3 0 0]).2.2.2 7 (by decide)
      { id := 0, time := 3, priority := 0, data := 0 }

end Cruiser
